import Mathlib

/-!
Verification development for the Neotoma-Visualizer core
(src/data.js, src/grouping.js, src/synonyms.js, src/search.js).

The JavaScript code is shallowly embedded:
* JS `Map` objects are association lists (`AList`) with insertion order
  preserved; `set` replaces an existing binding in place or appends.
* JS numbers holding taxon ids are `Int`; a possibly `null`/`undefined`
  id slot is `Option Int`.
* JS strings are Lean `String`, manipulated through their character
  lists so that every definition evaluates inside the kernel.
* The mutable tree built by `pathsToTree` is represented flat: `byId`
  maps an id to a node record whose `children` field lists child ids,
  exactly mirroring the object graph (`parent.children.push(child)`
  becomes appending the child id to the parent entry).
-/

namespace NeoViz

/-- JS `Map` with keys `κ` and values `ν`, in insertion order. -/
abbrev AList (κ ν : Type) := List (κ × ν)

/-- JS `Map.get`: first (unique) binding of a key. -/
def aget {κ ν : Type} [DecidableEq κ] (m : AList κ ν) (k : κ) : Option ν :=
  (m.find? (fun e => e.1 = k)).map (fun e => e.2)

/-- JS `Map.set`: replace the binding in place if present, else append. -/
def aset {κ ν : Type} [DecidableEq κ] (m : AList κ ν) (k : κ) (v : ν) : AList κ ν :=
  if (m.find? (fun e => e.1 = k)).isSome then
    m.map (fun e => if e.1 = k then (k, v) else e)
  else
    m ++ [(k, v)]

/-- JS `Map.has`. -/
def ahas {κ ν : Type} [DecidableEq κ] (m : AList κ ν) (k : κ) : Bool :=
  (m.find? (fun e => e.1 = k)).isSome

/-- The keys of a JS `Map` in insertion order (`Array.from(m.keys())`). -/
def akeys {κ ν : Type} (m : AList κ ν) : List κ := m.map (fun e => e.1)

/-- JS `Set` of elements with decidable equality, in insertion order.
`add` is insert-if-absent at the back. -/
def sadd {α : Type} [DecidableEq α] (s : List α) (x : α) : List α :=
  if x ∈ s then s else s ++ [x]

/-- JS `String.prototype.toLowerCase`, as a character map (the taxon
names involved are plain ASCII/Latin text). -/
def jsToLower (s : String) : String := String.mk (s.data.map Char.toLower)

/-- JS `a.includes(b)` on strings: substring containment. -/
def jsIncludes (s sub : String) : Bool :=
  s.data.tails.any (fun t => sub.data.isPrefixOf t)

/-- JS `s.endsWith(t)`. -/
def jsEndsWith (s t : String) : Bool := List.isSuffixOf t.data s.data

/-- JS `String.prototype.trim`. -/
def jsTrim (s : String) : String :=
  String.mk (((s.data.dropWhile Char.isWhitespace).reverse.dropWhile
    Char.isWhitespace).reverse)

/-! ## synonyms.js — `SynonymManager` -/

/-- One element of a `synonyms` array of an `all_synonyms.json` entry
(`synonymtype`/`recdatemodified` are carried through untouched and are
irrelevant to the verified properties, so they are omitted). -/
structure SynRec where
  invalid_id : Int
  invalid_name : String
deriving DecidableEq, Repr

/-- One entry of `all_synonyms.json`. -/
structure SynEntry where
  valid_id : Int
  valid_name : String
  taxagroupid : Int
  synonyms : List SynRec
deriving DecidableEq, Repr

/-- The record stored in `validIdToInfo` by `SynonymManager.load`. -/
structure SynInfo where
  validId : Int
  validName : String
  taxagroupid : Int
  synonyms : List SynRec
deriving DecidableEq, Repr

/-- The state of the `SynonymManager` singleton. -/
structure SynState where
  idToValidId : AList Int Int
  validIdToAllIds : AList Int (List Int)
  nameToValidId : AList String Int
  validIdToAllNames : AList Int (List String)
  validIdToInfo : AList Int SynInfo
  isLoaded : Bool
deriving Repr

/-- The freshly constructed manager (before `load` completes). -/
def SynState.init : SynState :=
  { idToValidId := [], validIdToAllIds := [], nameToValidId := [],
    validIdToAllNames := [], validIdToInfo := [], isLoaded := false }

/-- Processing of one entry inside `SynonymManager.load`'s forEach. -/
def loadEntry (st : SynState) (entry : SynEntry) : SynState :=
  let validId := entry.valid_id
  let validName := entry.valid_name
  let syns := entry.synonyms
  let allIds0 : List Int := [validId]
  let allNames0 : List String := [validName]
  let st := { st with idToValidId := aset st.idToValidId validId validId }
  let st := { st with nameToValidId := aset st.nameToValidId (jsToLower validName) validId }
  let step := fun (acc : SynState × List Int × List String) (syn : SynRec) =>
    let (st, allIds, allNames) := acc
    let st := { st with idToValidId := aset st.idToValidId syn.invalid_id validId }
    let st := { st with nameToValidId := aset st.nameToValidId (jsToLower syn.invalid_name) validId }
    (st, sadd allIds syn.invalid_id, sadd allNames syn.invalid_name)
  let (st, allIds, allNames) := syns.foldl step (st, allIds0, allNames0)
  let st := { st with validIdToAllIds := aset st.validIdToAllIds validId allIds }
  let st := { st with validIdToAllNames := aset st.validIdToAllNames validId allNames }
  let info : SynInfo :=
    { validId := validId, validName := validName,
      taxagroupid := entry.taxagroupid, synonyms := syns }
  { st with validIdToInfo := aset st.validIdToInfo validId info }

/-- `SynonymManager.load` on successfully fetched data (the network
fetch and the failure path, which leaves the state untouched with
`isLoaded` still false, live outside this embedding). -/
def SynState.load (entries : List SynEntry) : SynState :=
  let st := entries.foldl loadEntry SynState.init
  { st with isLoaded := true }

/-- `getValidId`: `this.idToValidId.get(id) || null` (note the JS `||`:
a stored 0 would also yield `null`). -/
def getValidId (st : SynState) (id : Int) : Option Int :=
  match aget st.idToValidId id with
  | none => none
  | some v => if v = 0 then none else some v

/-- `getAllSynonymIds`. -/
def getAllSynonymIds (st : SynState) (id : Int) : List Int :=
  match getValidId st id with
  | none => []
  | some v => (aget st.validIdToAllIds v).getD []

/-- `getAllSynonymNames`. -/
def getAllSynonymNames (st : SynState) (id : Int) : List String :=
  match getValidId st id with
  | none => []
  | some v => (aget st.validIdToAllNames v).getD []

/-- `isInvalidId`: `validId !== null && validId !== id`. -/
def isInvalidId (st : SynState) (id : Int) : Bool :=
  match getValidId st id with
  | none => false
  | some v => v ≠ id

/-- `getSynonymInfo`: `this.validIdToInfo.get(validId) || null`. -/
def getSynonymInfo (st : SynState) (id : Int) : Option SynInfo :=
  match getValidId st id with
  | none => none
  | some v => aget st.validIdToInfo v

/-- `isReady`. -/
def SynState.isReady (st : SynState) : Bool := st.isLoaded

/-- Lift of `getSynonymInfo` to a possibly-`null` id (a JS `Map.get`
on a key that was never set returns `undefined`, so a `null` node id
never resolves to synonym info). -/
def getSynonymInfoO (st : SynState) (k : Option Int) : Option SynInfo :=
  match k with
  | none => none
  | some id => getSynonymInfo st id

/-! ## data.js — `parseIdPath` (brace-delimited branch) -/

/-- JS `s.split(',')` on the character list. -/
def splitComma : List Char → List (List Char)
  | [] => [[]]
  | c :: rest =>
    match splitComma rest with
    | [] => [[c]]
    | g :: gs => if c = ',' then [] :: g :: gs else (c :: g) :: gs

/-- `t.replace(/[^0-9]/g, '')`. -/
def stripNonDigits (t : String) : String := String.mk (t.data.filter Char.isDigit)

/-- Decimal value of a list of digit characters (the effect of JS
`Number(acc)` on a non-empty all-digit accumulator string). -/
def digitsValL (ds : List Char) : Int :=
  Int.ofNat (ds.foldl (fun n c => 10 * n + (c.toNat - '0'.toNat)) 0)

/-- `Number(acc)` on a non-empty all-digit string. -/
def digitsVal (s : String) : Int := digitsValL s.data

/-- The digit-stripped lookahead token of the id fold
(`tokens[i + 1] ? tokens[i + 1].replace(/[^0-9]/g, '') : ''`). -/
def nextStr : List String → String
  | [] => ""
  | u :: _ => stripNonDigits u

/-- The token loop of `parseIdPath`'s brace branch: `acc` is the digit
accumulator; the lookahead `next` is the digit-stripped following raw
token (`tokens[i + 1] ? tokens[i + 1].replace(/[^0-9]/g, '') : ''`). -/
def idFold : List String → String → List Int
  | [], acc => if acc = "" then [] else [digitsVal acc]
  | tok :: rest, acc =>
    let t := stripNonDigits tok
    if t = "" then idFold rest acc
    else
      let step1 : List Int × String :=
        if acc.length + t.length ≤ 5 then ([], acc ++ t)
        else (if acc = "" then [] else [digitsVal acc], t)
      let out1 := step1.1
      let acc1 := step1.2
      if 4 ≤ acc1.length then
        let next := nextStr rest
        if next = "" ∨ acc1.length = 5 ∨ (acc1.length = 4 ∧ 1 < next.length) then
          out1 ++ [digitsVal acc1] ++ idFold rest ""
        else
          out1 ++ idFold rest acc1
      else
        out1 ++ idFold rest acc1

/-- The trimmed, non-empty comma tokens of a brace-delimited string
(`s.slice(1, -1).split(',').map(t => t.trim()).filter(Boolean)`). -/
def braceTokens (value : String) : List String :=
  let s := jsTrim value
  ((splitComma ((s.data.drop 1).dropLast)).map
    (fun cs => jsTrim (String.mk cs))).filter (fun t => t ≠ "")

/-- `parseIdPath` on a string input.  The array pass-through applies to
non-string inputs and the `s.startsWith('[')` branch delegates to
`JSON.parse`; neither is part of the verified brace-delimited form, so
both are outside this embedding (no theorem below depends on them and
`IsBraceForm` excludes them). -/
def parseIdPath (value : String) : List Int :=
  let s := jsTrim value
  if s.data.head? = some '{' ∧ s.data.getLast? = some '}' then
    idFold (braceTokens value) ""
  else
    []

/-- The stated reconstruction rule, defined from the spec's words (for
the C3 refinement claim): accumulate digit groups into a buffer and
flush the buffer as one id when it reaches 5 digits, when appending the
next token would exceed 5 digits, or when no token remains. -/
def specIdFlushRule : List String → String → List Int
  | [], b => if b = "" then [] else [digitsVal b]
  | t :: rest, b =>
    let step1 : List Int × String :=
      if 5 < b.length + t.length then
        (if b = "" then [] else [digitsVal b], t)
      else
        ([], b ++ t)
    let out1 := step1.1
    let b1 := step1.2
    if b1.length = 5 then out1 ++ [digitsVal b1] ++ specIdFlushRule rest ""
    else out1 ++ specIdFlushRule rest b1

/-- A string of the brace-delimited flattened form: after trimming it is
brace-wrapped and every comma token trims to a non-empty run of digits. -/
def IsBraceForm (value : String) : Prop :=
  (jsTrim value).data.head? = some '{' ∧ (jsTrim value).data.getLast? = some '}' ∧
  ∀ t ∈ braceTokens value, t ≠ "" ∧ t.data.all Char.isDigit

/-! ## data.js — `pathsToTree`

The mutable node graph is represented flat: `byId` maps an id key to a
node whose `children` field holds the ordered list of child id keys, so
`parent.children.push(child)` is an in-place update of the parent's
entry and `byId.set(id, child)` appends a fresh entry.  A node id is
`Option Int` because a record position can hold `null`.  The final
prune pass of `pathsToTree` (deleting empty `children` arrays) is
observationally the identity here: a leaf is a node whose child list is
empty. -/

/-- A normalized path record consumed by `pathsToTree`. -/
structure PathRow where
  ids_root_to_leaf : List (Option Int)
  names_root_to_leaf : List (Option String)
deriving Repr

/-- A tree/graft node (`isSynonym`/`validId` are set only on grafted
synonym nodes; on ordinary tree nodes the JS fields are absent, modelled
as `false`/`none`). -/
structure BNode where
  id : Option Int
  name : String
  children : List (Option Int)
  isSynonym : Bool
  validId : Option Int
deriving Repr, DecidableEq

abbrev ByIdMap := AList (Option Int) BNode

/-- JS `String(id)`. -/
def jsString : Option Int → String
  | none => "null"
  | some n => toString n

/-- The first pass of `pathsToTree` building the id → name fallback
dictionary (`if (id != null && nm && !nameDict.has(id)) nameDict.set(id, nm)`). -/
def rowDictStep (d : AList Int String) (r : PathRow) : AList Int String :=
  r.ids_root_to_leaf.enum.foldl
    (fun d p =>
      match p.2 with
      | none => d
      | some id =>
        match r.names_root_to_leaf.get? p.1 with
        | some (some nm) => if nm ≠ "" ∧ ahas d id = false then aset d id nm else d
        | _ => d)
    d

/-- `parent.children.push(child)` on the flat map. -/
def addChildTo (byId : ByIdMap) (p c : Option Int) : ByIdMap :=
  byId.map (fun e => if e.1 = p then (e.1, { e.2 with children := e.2.children ++ [c] }) else e)

/-- The inner walk of `pathsToTree` from position 1 of a record:
`i` is the current index into the record, `parentK` the key of the node
reached so far. -/
def walkIds (nameDict : AList Int String) (names : List (Option String)) :
    List (Option Int) → Nat → ByIdMap → Option Int → ByIdMap
  | [], _, byId, _ => byId
  | id :: rest, i, byId, parentK =>
    let name :=
      match names.get? i with
      | some (some nm) => nm
      | _ =>
        match id with
        | some n => (aget nameDict n).getD (jsString (some n))
        | none => jsString none
    match aget byId id with
    | some _ => walkIds nameDict names rest (i + 1) byId id
    | none =>
      let child : BNode :=
        { id := id, name := name, children := [], isSynonym := false, validId := none }
      let byId := aset byId id child
      let byId := addChildTo byId parentK id
      walkIds nameDict names rest (i + 1) byId id

/-- One record of the second pass of `pathsToTree`
(`if (ids[0] !== root.id) continue`). -/
def processRow (nameDict : AList Int String) (rootId : Int) (byId : ByIdMap)
    (r : PathRow) : ByIdMap :=
  match r.ids_root_to_leaf with
  | some rid :: rest =>
    if rid = rootId then walkIds nameDict r.names_root_to_leaf rest 1 byId (some rootId)
    else byId
  | _ => byId

/-- `pathsToTree(rows, rootId, rootName)` (defaults `6171`/`'Mammalia'`
in the source), returning the `byId` index; the returned `root` object
is its entry at `some rootId`. -/
def pathsToTree (rows : List PathRow) (rootId : Int) (rootName : String) : ByIdMap :=
  let root : BNode :=
    { id := some rootId, name := rootName, children := [], isSynonym := false, validId := none }
  let byId0 : ByIdMap := [(some rootId, root)]
  let nameDict := rows.foldl rowDictStep []
  rows.foldl (processRow nameDict rootId) byId0

/-! ## data.js — `addMissingSynonyms` -/

/-- A row of the full record pool (`allRows`): only the fields the graft
step reads. -/
structure AllRow where
  taxonid : Option Int
  taxonname : Option String
  taxagroupid : Option Int
deriving Repr

/-- `allNodesMap`: taxonid → taxonname for truthy pairs (the stored
object also carries `taxagroupid`, which nothing downstream reads). -/
def buildAllNodesMap (allRows : List AllRow) : AList Int String :=
  allRows.foldl
    (fun m r =>
      match r.taxonid, r.taxonname with
      | some tid, some tname => if tid ≠ 0 ∧ tname ≠ "" then aset m tid tname else m
      | _, _ => m)
    []

/-- The recursive `findParent(node, targetId, par)` tree search, fueled
(the JS recursion is over the finite object graph; every call below
passes fuel `byId.length + 1`, enough for any root-to-node chain). A
`null` result means the target was not found or is the start node. -/
def findParent (byId : ByIdMap) : Nat → Option Int → Option Int → Option (Option Int) →
    Option (Option Int)
  | 0, _, _, _ => none
  | fuel + 1, k, target, par =>
    if k = target then par
    else
      match aget byId k with
      | none => none
      | some n => n.children.findSome? (fun c => findParent byId fuel c target (some k))

/-- The body of the innermost `synonymInfo.synonyms.forEach(syn => ...)`. -/
def graftOne (rootK : Option Int) (allNodesMap : AList Int String) (info : SynInfo)
    (nodeId : Option Int) (byId : ByIdMap) (syn : SynRec) : ByIdMap :=
  let synId := syn.invalid_id
  if ahas byId (some synId) = false ∧ ahas allNodesMap synId = true then
    match aget allNodesMap synId with
    | none => byId
    | some synName =>
      match findParent byId (byId.length + 1) rootK nodeId none with
      | none => byId
      | some p =>
        let synNode : BNode :=
          { id := some synId, name := synName, children := [],
            isSynonym := true, validId := some info.validId }
        aset (addChildTo byId p (some synId)) (some synId) synNode
  else byId

/-- The body of `nodesToCheck.forEach(nodeId => ...)`. -/
def graftNode (rootK : Option Int) (allNodesMap : AList Int String) (mgr : SynState)
    (byId : ByIdMap) (nodeId : Option Int) : ByIdMap :=
  match getSynonymInfoO mgr nodeId with
  | none => byId
  | some info =>
    match aget byId nodeId with
    | none => byId
    | some _ => info.synonyms.foldl (graftOne rootK allNodesMap info nodeId) byId

/-- `addMissingSynonyms(treeRoot, byId, synonymManager, allRows)`:
`rootK` is the key of `treeRoot`.  `nodesToCheck` is snapshotted from
`byId` before any grafting. -/
def addMissingSynonyms (rootK : Option Int) (byId : ByIdMap) (mgr : SynState)
    (allRows : List AllRow) : ByIdMap :=
  if mgr.isReady = false then byId
  else
    let allNodesMap := buildAllNodesMap allRows
    let nodesToCheck := akeys byId
    nodesToCheck.foldl (graftNode rootK allNodesMap mgr) byId

/-! ## grouping.js -/

/-- `inferFamilyFromPath(names, groupDepth)` for an array argument (the
non-array guard returning `null` is outside the name-path domain). -/
def inferFamilyFromPath (names : List String) (groupDepth : Nat) : String :=
  match names.reverse.find? (fun s => (!(s == "")) && jsEndsWith (jsToLower s) "idae") with
  | some s => s
  | none =>
    if groupDepth < names.length ∧ names.getD groupDepth "" ≠ "" then
      names.getD groupDepth ""
    else if 2 ≤ names.length then
      names.getD (names.length - 2) ""
    else
      match names.head? with
      | some s0 => if s0 = "" then "Unknown" else s0
      | none => "Unknown"

/-- The group-key resolver exactly as the spec and claim C5 word it:
(a) the leaf-most name whose lowercase form ends in "idae"; (b) else if
the path is longer than `groupDepth`, the name at index `groupDepth`;
(c) else if the path has at least 2 entries, the second-to-last name;
(d) else the first name, or "Unknown" if the path is empty. -/
def specGroupKey (names : List String) (groupDepth : Nat) : String :=
  match names.reverse.find? (fun s => jsEndsWith (jsToLower s) "idae") with
  | some s => s
  | none =>
    if groupDepth < names.length then names.getD groupDepth ""
    else if 2 ≤ names.length then names.getD (names.length - 2) ""
    else
      match names.head? with
      | some s0 => s0
      | none => "Unknown"

/-- Claim C5 amended to the code's truthiness guards: in case (b) the
name at index `groupDepth` is returned only when non-empty (else fall
through to (c)/(d)), and in case (d) an empty first name also falls back
to "Unknown". -/
def specGroupKeyAmended (names : List String) (groupDepth : Nat) : String :=
  match names.reverse.find? (fun s => jsEndsWith (jsToLower s) "idae") with
  | some s => s
  | none =>
    if groupDepth < names.length ∧ names.getD groupDepth "" ≠ "" then
      names.getD groupDepth ""
    else if 2 ≤ names.length then names.getD (names.length - 2) ""
    else
      match names.head? with
      | some s0 => if s0 = "" then "Unknown" else s0
      | none => "Unknown"

/-- The `data` payload of a d3 hierarchy node as the grouping code reads
it: `id`, `name`, and the optional `pathNames` recorded by
`enrichTreeWithPaths`. -/
structure NodeData where
  id : Int
  name : String
  pathNames : Option (List String)
deriving Repr, DecidableEq

/-- A d3 hierarchy subtree (`children` empty ⟺ the node is a leaf). -/
inductive JTree where
  | node (data : NodeData) (children : List JTree)

namespace JTree

def data : JTree → NodeData
  | node d _ => d

def children : JTree → List JTree
  | node _ cs => cs

end JTree

/-- `node.leaves()` of d3: the leaf descendants in traversal (pre-)
order, paired with the JS `ancestors()` array of the leaf (the leaf's
data first, then each parent up to the root). -/
def leavesWithAnc : JTree → List NodeData → List (NodeData × List NodeData)
  | JTree.node d cs, anc =>
    let selfAnc := d :: anc
    if cs.isEmpty then [(d, selfAnc)]
    else cs.attach.flatMap (fun c => leavesWithAnc c.1 selfAnc)
termination_by t _ => sizeOf t
decreasing_by
  have h := List.sizeOf_lt_of_mem c.2
  simp only [JTree.node.sizeOf_spec]
  omega

/-- The leaf data of a subtree in traversal order (`child.leaves()` as
used by the reorder pass, which only reads each leaf's identity). -/
def leavesOf : JTree → List NodeData
  | JTree.node d cs =>
    if cs.isEmpty then [d]
    else cs.attach.flatMap (fun c => leavesOf c.1)
termination_by t => sizeOf t
decreasing_by
  have h := List.sizeOf_lt_of_mem c.2
  simp only [JTree.node.sizeOf_spec]
  omega

/-- `getGroupKey(node, groupDepth)` given the node's `ancestors()` array
(self first). -/
def getGroupKey (groupDepth : Nat) (selfAnc : List NodeData) : String :=
  match selfAnc with
  | [] => "Unknown"
  | nd :: _ =>
    let viaPath : Option String :=
      match nd.pathNames with
      | some l =>
        if l ≠ [] then
          let fam := inferFamilyFromPath l groupDepth
          if fam ≠ "" then some fam else none
        else none
      | none => none
    match viaPath with
    | some f => f
    | none =>
      let len := selfAnc.length
      let fallback : Option String :=
        if groupDepth + 1 ≤ len then
          match selfAnc.get? (len - 1 - groupDepth) with
          | some tn => if tn.name ≠ "" then some tn.name else none
          | none => none
        else none
      match fallback with
      | some f => f
      | none => if nd.name = "" then "Unknown" else nd.name

/-- One entry of `leafGroups` in `computeLeafOrder`; the leaf node is
identified by its id. -/
structure LeafItem where
  leafId : Int
  groupKey : String
  name : String
deriving Repr, DecidableEq

/-- The `leafGroups` comparator (sort by `groupKey`, then `name`) as the
"ordered before or tied" test of a stable sort; `cmp` abstracts JS
`localeCompare` (an implementation/locale-defined comparison). -/
def leafLe (cmp : String → String → Int) (a b : LeafItem) : Bool :=
  let g := cmp a.groupKey b.groupKey
  decide ((if g ≠ 0 then g else cmp a.name b.name) ≤ 0)

/-- `computeLeafOrder(root, groupDepth)`: leaf items sorted by
(groupKey, name). -/
def computeLeafOrder (cmp : String → String → Int) (groupDepth : Nat) (root : JTree) :
    List LeafItem :=
  let leafGroups := (leavesWithAnc root []).map
    (fun p => { leafId := p.1.id, groupKey := getGroupKey groupDepth p.2,
                name := p.1.name : LeafItem })
  leafGroups.mergeSort (leafLe cmp)

/-- The `leafToIndex` map keyed by leaf id. -/
def leafToIndexOf (cmp : String → String → Int) (groupDepth : Nat) (root : JTree) :
    AList Int Nat :=
  (computeLeafOrder cmp groupDepth root).enum.foldl
    (fun m p => aset m p.2.leafId p.1) []

/-- The `_sortKey` assigned to a child: the mean leaf index of an
internal child's subtree, the leaf's own index for a leaf child
(`leafToIndex.get(...) || 0` is a lookup with default 0). -/
def sortKeyOf (lidx : AList Int Nat) (t : JTree) : ℚ :=
  match t with
  | JTree.node d cs =>
    match cs with
    | [] => ((aget lidx d.id).getD 0 : Nat)
    | _ =>
      let ls := leavesOf t
      if 0 < ls.length then
        ((ls.map (fun l => (((aget lidx l.id).getD 0 : Nat) : ℚ))).sum) / (ls.length : ℚ)
      else 0

/-- `sortNodeChildren`: recurse bottom-up, then stable-sort the children
by `_sortKey` ascending. -/
def sortNodeChildren (lidx : AList Int Nat) : JTree → JTree
  | JTree.node d cs =>
    if cs.isEmpty then JTree.node d cs
    else
      let cs2 := cs.attach.map (fun c => sortNodeChildren lidx c.1)
      JTree.node d (cs2.mergeSort (fun a b => decide (sortKeyOf lidx a ≤ sortKeyOf lidx b)))
termination_by t => sizeOf t
decreasing_by
  have h := List.sizeOf_lt_of_mem c.2
  simp only [JTree.node.sizeOf_spec]
  omega

/-- `reorderTreeForGrouping(root, groupDepth)`; the `_sortKey` scratch
fields are transient (deleted by the final `root.each`), so they have no
representation here. -/
def reorderTreeForGrouping (cmp : String → String → Int) (groupDepth : Nat)
    (root : JTree) : JTree :=
  let lidx := leafToIndexOf cmp groupDepth root
  sortNodeChildren lidx root

/-- All subtrees of a tree (the node itself and its descendants). -/
def descendantsOf : JTree → List JTree
  | JTree.node d cs => JTree.node d cs :: cs.attach.flatMap (fun c => descendantsOf c.1)
termination_by t => sizeOf t
decreasing_by
  have h := List.sizeOf_lt_of_mem c.2
  simp only [JTree.node.sizeOf_spec]
  omega

/-! ## search.js — `runSearch` (the synonym-aware version) -/

/-- `Number(q)` for a trimmed query, specialised to the optionally
signed decimal integer literals relevant to id search (`none` plays the
role of `NaN`; forms like "1.5" are also non-ids, and exotic numeric
strings such as hex literals are outside this embedding). -/
def jsNumber (s : String) : Option Int :=
  match s.data with
  | [] => some 0
  | '-' :: ds => if ds ≠ [] ∧ ds.all Char.isDigit then some (-(digitsValL ds)) else none
  | '+' :: ds => if ds ≠ [] ∧ ds.all Char.isDigit then some (digitsValL ds) else none
  | ds => if ds.all Char.isDigit then some (digitsValL ds) else none

/-- The observable outcome of `runSearch`: the pushed match list (as
node ids) and the two classification sets, in insertion order. -/
structure SearchOut where
  currentMatches : List Int
  primaryMatchIds : List Int
  synonymMatchIds : List Int
deriving Repr, DecidableEq

/-- The mutable state threaded through the match-collection passes. -/
structure SState where
  ms : List Int
  matched : List Int
  prim : List Int
  syns : List Int
deriving Repr

/-- The step of the exact-id closure pass: push an unmatched closure
member present in the tree, classifying it synonym when it is not the
queried id. -/
def idClosureStep (ids : List Int) (id0 : Int) (st : SState) (synId : Int) : SState :=
  if synId ∈ ids ∧ synId ∉ st.matched then
    { st with ms := st.ms ++ [synId], matched := sadd st.matched synId,
              syns := if synId ≠ id0 then sadd st.syns synId else st.syns }
  else st

/-- The step of the direct name-match pass: push an unmatched direct
match and classify it primary. -/
def directStep (st : SState) (d : Int × String) : SState :=
  if d.1 ∈ st.matched then st
  else { st with ms := st.ms ++ [d.1], matched := sadd st.matched d.1,
                 prim := sadd st.prim d.1 }

/-- The step of the primary-closure expansion pass: push an unmatched
closure member that is in the tree, classifying it synonym unless it is
already primary. -/
def primClosureStep (ids : List Int) (st : SState) (synId : Int) : SState :=
  if synId ∈ ids ∧ synId ∉ st.matched then
    { st with ms := st.ms ++ [synId], matched := sadd st.matched synId,
              syns := if synId ∈ st.prim then st.syns else sadd st.syns synId }
  else st

/-- The step of the synonym-name-match expansion pass: push an unmatched
closure member that is in the tree, promoting it to primary when its own
synonym-name closure contains the query. -/
def synNameClosureStep (ids : List Int) (mgr : SynState) (lower : String)
    (st : SState) (synId : Int) : SState :=
  if synId ∈ ids ∧ synId ∉ st.matched then
    if (getAllSynonymNames mgr synId).any (fun nm => jsIncludes (jsToLower nm) lower) then
      { st with ms := st.ms ++ [synId], matched := sadd st.matched synId,
                prim := sadd st.prim synId }
    else
      { st with ms := st.ms ++ [synId], matched := sadd st.matched synId,
                syns := sadd st.syns synId }
  else st

/-- The fuzzy name-search branch of `runSearch` (direct name matches,
then — when synonyms are ready — synonym-name matches and synonym-id
closures). -/
def nameSearch (qt : String) (descs : List (Int × String)) (mgr : SynState) : SearchOut :=
  let ids := descs.map (fun d => d.1)
  let lower := jsToLower qt
  let directMatches := descs.filter (fun d => jsIncludes (jsToLower d.2) lower)
  let st1 := directMatches.foldl directStep { ms := [], matched := [], prim := [], syns := [] }
  if mgr.isReady then
    let synonymNameMatches := descs.foldl
      (fun (s : List Int) d =>
        if d.1 ∈ st1.matched then s
        else if (getAllSynonymNames mgr d.1).any (fun nm => jsIncludes (jsToLower nm) lower)
        then sadd s d.1 else s)
      []
    let allPrimaryIds := st1.prim
    let st2 := allPrimaryIds.foldl
      (fun (st : SState) primaryId =>
        (getAllSynonymIds mgr primaryId).foldl (primClosureStep ids) st)
      st1
    let st3 := synonymNameMatches.foldl
      (fun (st : SState) nodeId =>
        (getAllSynonymIds mgr nodeId).foldl (synNameClosureStep ids mgr lower) st)
      st2
    { currentMatches := st3.ms, primaryMatchIds := st3.prim, synonymMatchIds := st3.syns }
  else
    { currentMatches := st1.ms, primaryMatchIds := st1.prim, synonymMatchIds := st1.syns }

/-- `runSearch` as a function of the trimmed query, the tree's
descendant (id, name) list (`idToNode` is keyed by those ids) and the
synonym manager.  An empty trimmed query clears all state.  The DOM
highlighting, panel rendering and console logging around the collected
state are presentation-only and not modelled. -/
def runSearch (q : String) (descs : List (Int × String)) (mgr : SynState) : SearchOut :=
  let qt := jsTrim q
  if qt = "" then { currentMatches := [], primaryMatchIds := [], synonymMatchIds := [] }
  else
    let ids := descs.map (fun d => d.1)
    match jsNumber qt with
    | some id0 =>
      if id0 ∈ ids then
        let primary0 := sadd [] id0
        if mgr.isReady then
          let closure := getAllSynonymIds mgr id0
          let st := closure.foldl (idClosureStep ids id0)
            { ms := [], matched := [], prim := primary0, syns := [] }
          { currentMatches := st.ms, primaryMatchIds := st.prim, synonymMatchIds := st.syns }
        else
          { currentMatches := [id0], primaryMatchIds := primary0, synonymMatchIds := [] }
      else nameSearch qt descs mgr
    | none => nameSearch qt descs mgr

/-! ## Invariant-level definitions for the byId/tree bijection -/

/-- The concatenation of every node's child-key list. -/
def allChildren (byId : ByIdMap) : List (Option Int) :=
  (byId.map (fun e => e.2.children)).flatten

/-- A parent-to-descendant chain of a given length through `children`
edges of the flat node graph. -/
inductive ChainLen (byId : ByIdMap) : Option Int → Option Int → Nat → Prop where
  | refl (k : Option Int) : ChainLen byId k k 0
  | cons {a b c : Option Int} {n : BNode} {L : Nat} :
      aget byId a = some n → c ∈ n.children → ChainLen byId c b L →
      ChainLen byId a b (L + 1)

/-- Reachability through `children` edges. -/
def Reaches (byId : ByIdMap) (a b : Option Int) : Prop := ∃ L, ChainLen byId a b L

/-- The byId/tree bijection of claim C2: `byId` is keyed exactly by the
node set reachable from the root, each entry's node carries its key as
`id`, and every non-root key occurs exactly once as somebody's child
(the root never does), so each node occurs exactly once in the unfolded
tree. -/
def ByIdBij (byId : ByIdMap) (rootId : Int) : Prop :=
  (akeys byId).Nodup ∧
  (∀ k n, aget byId k = some n → n.id = k) ∧
  (∀ c ∈ allChildren byId, c ∈ akeys byId) ∧
  (allChildren byId).Nodup ∧
  (some rootId) ∉ allChildren byId ∧
  (∀ k ∈ akeys byId, k ≠ some rootId → k ∈ allChildren byId) ∧
  (∀ k ∈ akeys byId, Reaches byId (some rootId) k)

/-- The working invariant: the bijection plus the root key being present
and every key being reachable by a chain shorter than the map (the
fuel bound used by `findParent`). -/
def Inv (byId : ByIdMap) (rootId : Int) : Prop :=
  ByIdBij byId rootId ∧
  (some rootId) ∈ akeys byId ∧
  ∀ k ∈ akeys byId, ∃ L, ChainLen byId (some rootId) k L ∧ L < byId.length

/-- Well-formedness of a loaded synonym index (the spec's "every id
appears in exactly one synonym set" invariant, in the form the graft
step needs): each recorded entry's synonyms resolve back to that entry's
valid id. -/
def MgrWF (mgr : SynState) : Prop :=
  ∀ v info, aget mgr.validIdToInfo v = some info →
    ∀ syn ∈ info.synonyms, getValidId mgr syn.invalid_id = some v

/-- The id/children skeleton of the byId map (node names erased), used
to state that unrooted records contribute nothing structural. -/
def skeletonOf (byId : ByIdMap) : List ((Option Int) × List (Option Int)) :=
  byId.map (fun e => (e.1, e.2.children))

/-- "Only ever adds nodes": every node of `m` survives in `m2` with the
same id, name and flags, its child list only extended at the back. -/
def PreservesNodes (m m2 : ByIdMap) : Prop :=
  ∀ k n, aget m k = some n → ∃ n2, aget m2 k = some n2 ∧ n2.id = n.id ∧
    n2.name = n.name ∧ n.children <+: n2.children ∧
    n2.isSynonym = n.isSynonym ∧ n2.validId = n.validId

/-- Every synonym of an entry is already grafted (present in `byId`) or
absent from the record pool, so the graft step has nothing left to do
for that entry. -/
def DoneFor (byId : ByIdMap) (anm : AList Int String) (info : SynInfo) : Prop :=
  ∀ syn ∈ info.synonyms,
    ahas byId (some syn.invalid_id) = true ∨ ahas anm syn.invalid_id = false

/-- The digit-group hypothesis of claim C3: each token is a non-empty
run of decimal digits. -/
def GoodToks (ts : List String) : Prop :=
  ∀ t ∈ ts, t ≠ "" ∧ t.data.all Char.isDigit

/-- The classification invariant threaded through the name-search
passes: primary and synonym sets are disjoint subsets of the matched-id
set, every matched id is classified, and every pushed match was
recorded as matched. -/
def SStateOk (st : SState) : Prop :=
  (∀ i ∈ st.prim, i ∉ st.syns) ∧
  (∀ i ∈ st.prim, i ∈ st.matched) ∧
  (∀ i ∈ st.syns, i ∈ st.matched) ∧
  (∀ i ∈ st.matched, i ∈ st.prim ∨ i ∈ st.syns) ∧
  (∀ i ∈ st.ms, i ∈ st.matched)

/-- The classification outcome claimed by C10: the two id sets are
disjoint and every pushed match is classified. -/
def SearchOutOk (out : SearchOut) : Prop :=
  (∀ i ∈ out.primaryMatchIds, i ∉ out.synonymMatchIds) ∧
  (∀ i ∈ out.currentMatches, i ∈ out.primaryMatchIds ∨ i ∈ out.synonymMatchIds)

/-! # Theorems -/

/-! ## Generic helpers -/

theorem mem_sadd {α : Type} [DecidableEq α] {s : List α} {x y : α} :
    y ∈ sadd s x ↔ y ∈ s ∨ y = x := by
  unfold sadd
  split_ifs with h
  · constructor
    · exact Or.inl
    · rintro (h1 | rfl)
      · exact h1
      · exact h
  · simp [List.mem_append]

theorem find?_ext {α : Type} {p q : α → Bool} :
    ∀ l : List α, (∀ a ∈ l, p a = q a) → l.find? p = l.find? q
  | [], _ => rfl
  | a :: l, h => by
    simp only [List.find?]
    rw [h a (by simp)]
    cases q a with
    | true => rfl
    | false => exact find?_ext l (fun b hb => h b (by simp [hb]))

theorem string_eq_empty_iff {s : String} : s = "" ↔ s.data = [] := by
  constructor
  · rintro rfl; rfl
  · intro h
    cases s with
    | mk d => cases h; rfl

theorem attach_flatMap {α β : Type} (l : List α) (F : α → List β) :
    l.attach.flatMap (fun c => F c.1) = l.flatMap F := by
  have h1 : l.attach.flatMap (fun c => F c.1)
      = (l.attach.map (fun c => c.1)).flatMap F := by
    rw [List.flatMap_map]
  have h2 : l.attach.map (fun c => c.1) = l := by simp
  rw [h1, h2]

theorem foldl_inv {σ α : Type} (P : σ → Prop) (f : σ → α → σ) :
    ∀ (l : List α) (s : σ), P s → (∀ s a, P s → P (f s a)) → P (l.foldl f s)
  | [], _, h, _ => h
  | a :: l, s, h, hstep => foldl_inv P f l (f s a) (hstep s a h) hstep

/-! ## C9 — isInvalidId characterisation -/

/-- C9: `isInvalidId id` is true iff `getValidId` resolves `id` to a valid
id different from `id` itself; it is false whenever `idToValidId` has no
entry for `id`, and in particular on the initial manager state, i.e. for
every id queried before load completes. -/
theorem c9_isInvalidId_iff :
    (∀ (mgr : SynState) (id : Int),
      isInvalidId mgr id = true ↔ ∃ v, getValidId mgr id = some v ∧ v ≠ id) ∧
    (∀ (mgr : SynState) (id : Int),
      aget mgr.idToValidId id = none → isInvalidId mgr id = false) ∧
    (∀ id : Int, isInvalidId SynState.init id = false) := by
  refine ⟨?_, ?_, ?_⟩
  · intro mgr id
    unfold isInvalidId
    cases h : getValidId mgr id with
    | none => simp
    | some v => simp
  · intro mgr id h
    unfold isInvalidId getValidId
    rw [h]
  · intro id
    rfl

/-- Witness for C9 at a concrete manager and id. -/
theorem c9_witness : isInvalidId SynState.init 7 = false :=
  c9_isInvalidId_iff.2.1 SynState.init 7 rfl

/-! ## C5 — group-key resolver -/

/-- C5 counterexample: on the path `[""]` with `groupDepth = 0` the code
returns `"Unknown"` while the claimed rule returns the name at index
`groupDepth`, the empty string (the code's truthiness guards on
`names[groupDepth]` and `names[0]` are missing from the claim). -/
theorem c5_counterexample :
    ¬ inferFamilyFromPath [""] 0 = specGroupKey [""] 0 := by decide

/-- C5 amended: the resolver follows the claimed priority order with the
code's truthiness guards added in cases (b) and (d): the name at index
`groupDepth` is used only if non-empty, and an empty first name also
falls back to `"Unknown"`. -/
theorem c5_groupKey_amended (names : List String) (groupDepth : Nat) :
    inferFamilyFromPath names groupDepth = specGroupKeyAmended names groupDepth := by
  unfold inferFamilyFromPath specGroupKeyAmended
  rw [find?_ext names.reverse ?_]
  intro a _
  cases ha : a == "" with
  | true =>
    have ha2 : a = "" := eq_of_beq ha
    subst ha2
    rfl
  | false => simp

/-! ## C1 — exact-id search drops the queried node (code bug) -/

/-- C1: with the synonym index loaded but holding no entry for the
queried id, the exact-id branch classifies the queried id as primary yet
pushes nothing onto the match list, so the search reports no matches for
an id that is present in the tree (the claim and spec require the node
to be in the returned match list). -/
theorem c1_idSearch_no_entry_drops_node :
    (runSearch "42" [(10, "Root"), (42, "Target")]
        (SynState.load [⟨1, "a", 0, [⟨2, "b"⟩]⟩])).currentMatches = [] ∧
    42 ∈ (runSearch "42" [(10, "Root"), (42, "Target")]
        (SynState.load [⟨1, "a", 0, [⟨2, "b"⟩]⟩])).primaryMatchIds := by decide

/-! ## C7 — missing id at a record position (corrected) -/

/-- C7 counterexample: on a record with a `null` id at position 1 the
builder does create a node (keyed by the null id, reachable under the
root) and the parent advances to it: the next position attaches under
the null-id node, not under the root — contradicting the claim that the
position is skipped with no node created and no parent advance. -/
theorem c7_counterexample :
    ahas (pathsToTree [⟨[some 6171, none, some 5],
        [some "M", some "X", some "Y"]⟩] 6171 "Mammalia") none = true ∧
    (aget (pathsToTree [⟨[some 6171, none, some 5],
        [some "M", some "X", some "Y"]⟩] 6171 "Mammalia") (some 6171)).map
        (fun n => n.children) = some [none] ∧
    (aget (pathsToTree [⟨[some 6171, none, some 5],
        [some "M", some "X", some "Y"]⟩] 6171 "Mammalia") none).map
        (fun n => n.children) = some [some 5] := by decide

/-- C7 amended: an empty/missing id at a position is treated like any
other id value — on first encounter the builder creates a node keyed by
the null id, attaches it to the current parent, and the parent advances
to it, so later positions of the record attach beneath the null-id
node. -/
theorem c7_amended_gap_creates_node (rid a : Int) (h : a ≠ rid) :
    akeys (pathsToTree [⟨[some rid, none, some a],
        [some "R", some "X", some "Y"]⟩] rid "R") = [some rid, none, some a] ∧
    (aget (pathsToTree [⟨[some rid, none, some a],
        [some "R", some "X", some "Y"]⟩] rid "R") (some rid)).map
        (fun n => n.children) = some [none] ∧
    (aget (pathsToTree [⟨[some rid, none, some a],
        [some "R", some "X", some "Y"]⟩] rid "R") none).map
        (fun n => n.children) = some [some a] := by
  simp [pathsToTree, rowDictStep, processRow, walkIds, addChildTo, aget, aset, ahas,
    akeys, List.find?, h, Ne.symm h, jsString, List.enum]

/-- Witness for the amended C7 at concrete ids. -/
theorem c7_amended_witness :
    akeys (pathsToTree [⟨[some 6171, none, some 5],
        [some "R", some "X", some "Y"]⟩] 6171 "R") = [some 6171, none, some 5] ∧
    (aget (pathsToTree [⟨[some 6171, none, some 5],
        [some "R", some "X", some "Y"]⟩] 6171 "R") (some 6171)).map
        (fun n => n.children) = some [none] ∧
    (aget (pathsToTree [⟨[some 6171, none, some 5],
        [some "R", some "X", some "Y"]⟩] 6171 "R") none).map
        (fun n => n.children) = some [some 5] :=
  c7_amended_gap_creates_node 6171 5 (by decide)

/-! ## C4 — unrooted records are skipped entirely -/

theorem akeys_of_skeleton {b1 b2 : ByIdMap} (h : skeletonOf b1 = skeletonOf b2) :
    akeys b1 = akeys b2 := by
  have h1 : (skeletonOf b1).map (fun e => e.1) = (skeletonOf b2).map (fun e => e.1) := by
    rw [h]
  simpa [skeletonOf, akeys, List.map_map, Function.comp] using h1

theorem aget_isSome_of_skeleton {b1 b2 : ByIdMap} (h : skeletonOf b1 = skeletonOf b2)
    (k : Option Int) : (aget b1 k).isSome = (aget b2 k).isSome := by
  induction b1 generalizing b2 with
  | nil =>
    cases b2 with
    | nil => rfl
    | cons e2 t2 => simp [skeletonOf] at h
  | cons e1 t1 ih =>
    cases b2 with
    | nil => simp [skeletonOf] at h
    | cons e2 t2 =>
      simp only [skeletonOf, List.map_cons, List.cons.injEq, Prod.mk.injEq] at h
      obtain ⟨⟨hk, _⟩, ht⟩ := h
      by_cases hc : e1.1 = k
      · have hc2 : e2.1 = k := by rw [← hk]; exact hc
        simp [aget, List.find?, hc, hc2]
      · have hc2 : ¬ e2.1 = k := by rw [← hk]; exact hc
        have hr := ih ht
        simp only [aget] at hr
        simp [aget, List.find?, hc, hc2, hr]

theorem skeleton_addChild (b : ByIdMap) (p c : Option Int) :
    skeletonOf (addChildTo b p c)
      = (skeletonOf b).map (fun e => if e.1 = p then (e.1, e.2 ++ [c]) else e) := by
  unfold addChildTo
  simp only [skeletonOf, List.map_map]
  apply List.map_congr_left
  intro e _
  by_cases hc : e.1 = p
  · simp [hc]
  · simp [hc]

theorem skeleton_aset_fresh (b : ByIdMap) (k : Option Int) (v : BNode)
    (h : aget b k = none) :
    skeletonOf (aset b k v) = skeletonOf b ++ [(k, v.children)] := by
  have hf : (b.find? (fun e => e.1 = k)).isSome = false := by
    unfold aget at h
    cases hx : b.find? (fun e => e.1 = k) with
    | none => rfl
    | some e => rw [hx] at h; simp at h
  unfold aset
  rw [if_neg (by simp [hf])]
  simp [skeletonOf]

/-- The inner walk of `pathsToTree` affects the id/children skeleton
independently of the name dictionary, the record's names and the
position index, which only influence node names. -/
theorem walk_skeleton (nd1 nd2 : AList Int String) (ns1 ns2 : List (Option String)) :
    ∀ (ids : List (Option Int)) (i1 i2 : Nat) (b1 b2 : ByIdMap) (p : Option Int),
      skeletonOf b1 = skeletonOf b2 →
      skeletonOf (walkIds nd1 ns1 ids i1 b1 p) = skeletonOf (walkIds nd2 ns2 ids i2 b2 p)
  | [], _, _, _, _, _, h => h
  | id :: rest, i1, i2, b1, b2, p, h => by
    simp only [walkIds]
    have hsome := aget_isSome_of_skeleton h id
    cases h1 : aget b1 id with
    | some n1 =>
      cases h2 : aget b2 id with
      | some n2 => exact walk_skeleton nd1 nd2 ns1 ns2 rest (i1+1) (i2+1) b1 b2 id h
      | none => rw [h1, h2] at hsome; simp at hsome
    | none =>
      cases h2 : aget b2 id with
      | some n2 => rw [h1, h2] at hsome; simp at hsome
      | none =>
        apply walk_skeleton nd1 nd2 ns1 ns2 rest (i1+1) (i2+1)
        rw [skeleton_addChild, skeleton_addChild, skeleton_aset_fresh _ _ _ h1,
          skeleton_aset_fresh _ _ _ h2, h]

/-- One record advances the skeleton independently of the name
dictionary. -/
theorem processRow_skeleton (nd1 nd2 : AList Int String) (rootId : Int)
    (b1 b2 : ByIdMap) (r : PathRow) (h : skeletonOf b1 = skeletonOf b2) :
    skeletonOf (processRow nd1 rootId b1 r) = skeletonOf (processRow nd2 rootId b2 r) := by
  cases hids : r.ids_root_to_leaf with
  | nil => simp only [processRow, hids]; exact h
  | cons hd rest =>
    cases hd with
    | none => simp only [processRow, hids]; exact h
    | some rid =>
      by_cases hr : rid = rootId
      · simp only [processRow, hids, if_pos hr]
        exact walk_skeleton nd1 nd2 _ _ rest 1 1 b1 b2 (some rootId) h
      · simp only [processRow, hids, if_neg hr]
        exact h

theorem fold_skeleton (nd1 nd2 : AList Int String) (rootId : Int) :
    ∀ (rows : List PathRow) (b1 b2 : ByIdMap), skeletonOf b1 = skeletonOf b2 →
      skeletonOf (rows.foldl (processRow nd1 rootId) b1)
        = skeletonOf (rows.foldl (processRow nd2 rootId) b2)
  | [], _, _, h => h
  | r :: rows, b1, b2, h => by
    simp only [List.foldl_cons]
    exact fold_skeleton nd1 nd2 rootId rows _ _ (processRow_skeleton nd1 nd2 rootId b1 b2 r h)

/-- An unrooted record leaves the byId map untouched. -/
theorem processRow_unrooted (nd : AList Int String) (rootId : Int) (b : ByIdMap)
    (r : PathRow) (h : r.ids_root_to_leaf.head? ≠ some (some rootId)) :
    processRow nd rootId b r = b := by
  cases hids : r.ids_root_to_leaf with
  | nil => simp only [processRow, hids]
  | cons hd rest =>
    cases hd with
    | none => simp only [processRow, hids]
    | some rid =>
      have hr : ¬ rid = rootId := by
        intro hr
        apply h
        rw [hids, hr]
        rfl
      simp only [processRow, hids, if_neg hr]

/-- C4: a record whose first id is not the configured root id is skipped
in its entirety: the resulting byId map has exactly the same keys and
child structure as if the record were absent (only node names, fed by
the global name dictionary, can differ — no node is created from any
position of the record).  `pathsToTree` is a total function, so no
error is raised. -/
theorem c4_unrooted_record_skipped (rows1 rows2 : List PathRow) (r : PathRow)
    (rootId : Int) (rootName : String)
    (h : r.ids_root_to_leaf.head? ≠ some (some rootId)) :
    skeletonOf (pathsToTree (rows1 ++ r :: rows2) rootId rootName)
      = skeletonOf (pathsToTree (rows1 ++ rows2) rootId rootName) := by
  simp only [pathsToTree, List.foldl_append, List.foldl_cons]
  rw [processRow_unrooted _ _ _ _ h]
  apply fold_skeleton
  apply fold_skeleton
  rfl

/-! ## C10 — search classification invariants -/

theorem SStateOk_pushPrim {st : SState} {x : Int} (hx : x ∉ st.matched) (h : SStateOk st) :
    SStateOk { st with ms := st.ms ++ [x], matched := sadd st.matched x,
                       prim := sadd st.prim x } := by
  obtain ⟨h1, h2, h3, h4, h5⟩ := h
  refine ⟨?_, ?_, ?_, ?_, ?_⟩ <;> intro i hi
  · rcases mem_sadd.mp hi with hp | rfl
    · exact h1 i hp
    · intro hs; exact hx (h3 i hs)
  · rcases mem_sadd.mp hi with hp | rfl
    · exact mem_sadd.mpr (Or.inl (h2 i hp))
    · exact mem_sadd.mpr (Or.inr rfl)
  · exact mem_sadd.mpr (Or.inl (h3 i hi))
  · rcases mem_sadd.mp hi with hm | rfl
    · rcases h4 i hm with hp | hs
      · exact Or.inl (mem_sadd.mpr (Or.inl hp))
      · exact Or.inr hs
    · exact Or.inl (mem_sadd.mpr (Or.inr rfl))
  · simp only [List.mem_append, List.mem_singleton] at hi
    rcases hi with hm | rfl
    · exact mem_sadd.mpr (Or.inl (h5 i hm))
    · exact mem_sadd.mpr (Or.inr rfl)

theorem SStateOk_pushSyn {st : SState} {x : Int} (hx : x ∉ st.matched) (h : SStateOk st) :
    SStateOk { st with ms := st.ms ++ [x], matched := sadd st.matched x,
                       syns := sadd st.syns x } := by
  obtain ⟨h1, h2, h3, h4, h5⟩ := h
  refine ⟨?_, ?_, ?_, ?_, ?_⟩ <;> intro i hi
  · intro hs
    rcases mem_sadd.mp hs with hs2 | rfl
    · exact h1 i hi hs2
    · exact hx (h2 i hi)
  · exact mem_sadd.mpr (Or.inl (h2 i hi))
  · rcases mem_sadd.mp hi with hs | rfl
    · exact mem_sadd.mpr (Or.inl (h3 i hs))
    · exact mem_sadd.mpr (Or.inr rfl)
  · rcases mem_sadd.mp hi with hm | rfl
    · rcases h4 i hm with hp | hs
      · exact Or.inl hp
      · exact Or.inr (mem_sadd.mpr (Or.inl hs))
    · exact Or.inr (mem_sadd.mpr (Or.inr rfl))
  · simp only [List.mem_append, List.mem_singleton] at hi
    rcases hi with hm | rfl
    · exact mem_sadd.mpr (Or.inl (h5 i hm))
    · exact mem_sadd.mpr (Or.inr rfl)

theorem SStateOk_pushMatchedOnly {st : SState} {x : Int} (hx : x ∈ st.prim)
    (h : SStateOk st) :
    SStateOk { st with ms := st.ms ++ [x], matched := sadd st.matched x } := by
  obtain ⟨h1, h2, h3, h4, h5⟩ := h
  refine ⟨h1, ?_, ?_, ?_, ?_⟩ <;> intro i hi
  · exact mem_sadd.mpr (Or.inl (h2 i hi))
  · exact mem_sadd.mpr (Or.inl (h3 i hi))
  · rcases mem_sadd.mp hi with hm | rfl
    · rcases h4 i hm with hp | hs
      · exact Or.inl hp
      · exact Or.inr hs
    · exact Or.inl hx
  · simp only [List.mem_append, List.mem_singleton] at hi
    rcases hi with hm | rfl
    · exact mem_sadd.mpr (Or.inl (h5 i hm))
    · exact mem_sadd.mpr (Or.inr rfl)

theorem SStateOk_directStep {st : SState} (d : Int × String) (h : SStateOk st) :
    SStateOk (directStep st d) := by
  unfold directStep
  split_ifs with hm
  · exact h
  · exact SStateOk_pushPrim hm h

theorem SStateOk_primClosureStep {st : SState} (ids : List Int) (x : Int)
    (h : SStateOk st) : SStateOk (primClosureStep ids st x) := by
  unfold primClosureStep
  by_cases hc : x ∈ ids ∧ x ∉ st.matched
  · rw [if_pos hc]
    by_cases hp : x ∈ st.prim
    · rw [if_pos hp]
      exact SStateOk_pushMatchedOnly hp h
    · rw [if_neg hp]
      exact SStateOk_pushSyn hc.2 h
  · rw [if_neg hc]
    exact h

theorem SStateOk_synNameClosureStep {st : SState} (ids : List Int) (mgr : SynState)
    (lower : String) (x : Int) (h : SStateOk st) :
    SStateOk (synNameClosureStep ids mgr lower st x) := by
  unfold synNameClosureStep
  by_cases hc : x ∈ ids ∧ x ∉ st.matched
  · rw [if_pos hc]
    by_cases hd : ((getAllSynonymNames mgr x).any fun nm => jsIncludes (jsToLower nm) lower) = true
    · rw [if_pos hd]
      exact SStateOk_pushPrim hc.2 h
    · rw [if_neg hd]
      exact SStateOk_pushSyn hc.2 h
  · rw [if_neg hc]
    exact h

theorem searchOutOk_of_SStateOk {st : SState} (h : SStateOk st) :
    SearchOutOk ⟨st.ms, st.prim, st.syns⟩ := by
  obtain ⟨h1, _, _, h4, h5⟩ := h
  exact ⟨h1, fun i hi => h4 i (h5 i hi)⟩

theorem nameSearch_ok (qt : String) (descs : List (Int × String)) (mgr : SynState) :
    SearchOutOk (nameSearch qt descs mgr) := by
  have base : SStateOk { ms := [], matched := [], prim := [], syns := [] } := by
    refine ⟨?_, ?_, ?_, ?_, ?_⟩ <;> intro i hi <;> simp at hi
  by_cases hr : mgr.isReady
  · simp only [nameSearch, if_pos hr]
    apply searchOutOk_of_SStateOk
    apply foldl_inv
    · apply foldl_inv
      · exact foldl_inv SStateOk _ _ _ base (fun s a hs => SStateOk_directStep a hs)
      · intro s a hs
        exact foldl_inv SStateOk _ _ _ hs
          (fun s2 b hs2 => SStateOk_primClosureStep _ _ hs2)
    · intro s a hs
      exact foldl_inv SStateOk _ _ _ hs
        (fun s2 b hs2 => SStateOk_synNameClosureStep _ _ _ _ hs2)
  · simp only [nameSearch, if_neg hr]
    apply searchOutOk_of_SStateOk
    exact foldl_inv SStateOk _ _ _ base (fun s a hs => SStateOk_directStep a hs)

theorem runSearch_ok (q : String) (descs : List (Int × String)) (mgr : SynState) :
    SearchOutOk (runSearch q descs mgr) := by
  by_cases hq : jsTrim q = ""
  · simp only [runSearch, if_pos hq]
    exact ⟨fun i hi => by simp at hi, fun i hi => by simp at hi⟩
  · simp only [runSearch, if_neg hq]
    cases hn : jsNumber (jsTrim q) with
    | none => exact nameSearch_ok _ descs mgr
    | some id0 =>
      dsimp only
      by_cases hin : id0 ∈ descs.map (fun d => d.1)
      · rw [if_pos hin]
        by_cases hr : mgr.isReady
        · rw [if_pos hr]
          have hfold := foldl_inv
            (fun st : SState => st.prim = sadd [] id0 ∧
              (∀ i ∈ st.syns, ¬ i = id0) ∧ (∀ i ∈ st.ms, i = id0 ∨ i ∈ st.syns))
            (idClosureStep (descs.map (fun d => d.1)) id0)
            (getAllSynonymIds mgr id0)
            { ms := [], matched := [], prim := sadd [] id0, syns := [] }
            ⟨rfl, fun i hi => by simp at hi, fun i hi => by simp at hi⟩
            ?_
          · obtain ⟨hp, hs, hm⟩ := hfold
            refine ⟨?_, ?_⟩ <;> intro i hi <;> simp only at hi hp ⊢
            · rw [hp] at hi
              rcases mem_sadd.mp hi with h0 | rfl
              · simp at h0
              · intro hsy
                exact hs i hsy rfl
            · rcases hm i hi with rfl | hsy
              · exact Or.inl (by rw [hp]; exact mem_sadd.mpr (Or.inr rfl))
              · exact Or.inr hsy
          · intro s a hs
            obtain ⟨hp, hsy, hm⟩ := hs
            unfold idClosureStep
            split_ifs with hc hne
            · refine ⟨hp, ?_, ?_⟩ <;> intro i hi
              · rcases mem_sadd.mp hi with h2 | rfl
                · exact hsy i h2
                · exact hne
              · simp only [List.mem_append, List.mem_singleton] at hi
                rcases hi with hm2 | rfl
                · rcases hm i hm2 with rfl | h2
                  · exact Or.inl rfl
                  · exact Or.inr (mem_sadd.mpr (Or.inl h2))
                · exact Or.inr (mem_sadd.mpr (Or.inr rfl))
            · refine ⟨hp, hsy, ?_⟩
              intro i hi
              simp only [List.mem_append, List.mem_singleton] at hi
              rcases hi with hm2 | rfl
              · exact hm i hm2
              · exact Or.inl (not_not.mp hne)
            · exact ⟨hp, hsy, hm⟩
        · rw [if_neg hr]
          refine ⟨?_, ?_⟩ <;> intro i hi <;> simp only at hi ⊢
          · rcases mem_sadd.mp hi with h0 | rfl
            · simp at h0
            · simp
          · simp only [List.mem_singleton] at hi
            subst hi
            exact Or.inl (mem_sadd.mpr (Or.inr rfl))
      · rw [if_neg hin]
        exact nameSearch_ok _ descs mgr

/-- C10: after every execution of a search with a non-empty (trimmed)
query, the `primaryMatchIds` and `synonymMatchIds` sets are disjoint and
the id of every node on the returned match list belongs to exactly one
of the two sets. -/
theorem c10_match_classification (q : String) (descs : List (Int × String))
    (mgr : SynState) (_h : jsTrim q ≠ "") :
    (∀ i ∈ (runSearch q descs mgr).primaryMatchIds,
        i ∉ (runSearch q descs mgr).synonymMatchIds) ∧
    (∀ i ∈ (runSearch q descs mgr).currentMatches,
        (i ∈ (runSearch q descs mgr).primaryMatchIds ∧
         i ∉ (runSearch q descs mgr).synonymMatchIds) ∨
        (i ∈ (runSearch q descs mgr).synonymMatchIds ∧
         i ∉ (runSearch q descs mgr).primaryMatchIds)) := by
  have hok := runSearch_ok q descs mgr
  refine ⟨hok.1, fun i hi => ?_⟩
  rcases hok.2 i hi with hp | hs
  · exact Or.inl ⟨hp, hok.1 i hp⟩
  · by_cases hp : i ∈ (runSearch q descs mgr).primaryMatchIds
    · exact Or.inl ⟨hp, hok.1 i hp⟩
    · exact Or.inr ⟨hs, hp⟩

/-- Witness for C10 at a concrete query, tree and manager. -/
theorem c10_witness :
    (∀ i ∈ (runSearch "cat" [(1, "cat")] SynState.init).primaryMatchIds,
        i ∉ (runSearch "cat" [(1, "cat")] SynState.init).synonymMatchIds) ∧
    (∀ i ∈ (runSearch "cat" [(1, "cat")] SynState.init).currentMatches,
        (i ∈ (runSearch "cat" [(1, "cat")] SynState.init).primaryMatchIds ∧
         i ∉ (runSearch "cat" [(1, "cat")] SynState.init).synonymMatchIds) ∨
        (i ∈ (runSearch "cat" [(1, "cat")] SynState.init).synonymMatchIds ∧
         i ∉ (runSearch "cat" [(1, "cat")] SynState.init).primaryMatchIds)) :=
  c10_match_classification "cat" [(1, "cat")] SynState.init (by decide)

/-! ## C6 — reordered siblings are sorted by subtree-average leaf index -/

theorem sortNodeChildren_sorted (lidx : AList Int Nat) :
    ∀ (t : JTree), ∀ n ∈ descendantsOf (sortNodeChildren lidx t),
      ((n.children).map (sortKeyOf lidx)).Pairwise (· ≤ ·)
  | JTree.node d cs => by
    by_cases hcs : cs.isEmpty
    · rw [sortNodeChildren, if_pos hcs]
      intro n hn
      cases cs with
      | cons a l => simp at hcs
      | nil =>
        simp only [descendantsOf, List.attach_nil, List.flatMap_nil, List.mem_singleton] at hn
        subst hn
        simp [JTree.children]
    · rw [sortNodeChildren, if_neg hcs]
      intro n hn
      simp only [descendantsOf] at hn
      rw [attach_flatMap] at hn
      rcases List.mem_cons.mp hn with rfl | hmem
      · simp only [JTree.children, List.pairwise_map]
        have hs := @List.sorted_mergeSort JTree
          (fun a b => decide (sortKeyOf lidx a ≤ sortKeyOf lidx b))
          (fun a b c hab hbc =>
            decide_eq_true (le_trans (of_decide_eq_true hab) (of_decide_eq_true hbc)))
          (fun a b => by
            rcases le_total (sortKeyOf lidx a) (sortKeyOf lidx b) with h | h
            · simp [decide_eq_true h]
            · simp [decide_eq_true h])
          (cs.attach.map (fun c => sortNodeChildren lidx c.1))
        exact hs.imp (fun hab => of_decide_eq_true hab)
      · rcases List.mem_flatMap.mp hmem with ⟨c2, hc2, hn2⟩
        have hc3 := (List.mergeSort_perm _ _).mem_iff.mp hc2
        rcases List.mem_map.mp hc3 with ⟨c, hc, rfl⟩
        exact sortNodeChildren_sorted lidx c.1 n hn2
termination_by t => sizeOf t
decreasing_by
  have h := List.sizeOf_lt_of_mem c.2
  simp only [JTree.node.sizeOf_spec]
  omega

/-- C6: after `reorderTreeForGrouping`, every node's children appear in
nondecreasing order of their sort key — the mean position of the child's
subtree leaves in the global leaf order computed by `computeLeafOrder`
on the tree before reordering (the child's own position if it is a
leaf), which is exactly `sortKeyOf` of the pre-reorder `leafToIndex`. -/
theorem c6_reorder_children_sorted (cmp : String → String → Int) (groupDepth : Nat)
    (t : JTree) :
    ∀ n ∈ descendantsOf (reorderTreeForGrouping cmp groupDepth t),
      ((n.children).map (sortKeyOf (leafToIndexOf cmp groupDepth t))).Pairwise (· ≤ ·) :=
  fun n hn => sortNodeChildren_sorted (leafToIndexOf cmp groupDepth t) t n hn

/-- Witness for C6 at a concrete tree and node. -/
theorem c6_witness :
    (((JTree.node ⟨1, "leaf", none⟩ []).children).map
        (sortKeyOf (leafToIndexOf (fun _ _ => 0) 3
          (JTree.node ⟨1, "leaf", none⟩ [])))).Pairwise (· ≤ ·) :=
  c6_reorder_children_sorted (fun _ _ => 0) 3 (JTree.node ⟨1, "leaf", none⟩ [])
    (JTree.node ⟨1, "leaf", none⟩ [])
    (by simp [reorderTreeForGrouping, sortNodeChildren, descendantsOf])

/-- Witness for C4: dropping a concrete unrooted record. -/
theorem c4_witness :
    skeletonOf (pathsToTree ([] ++ (⟨[some 99, some 5], [some "A", some "B"]⟩ : PathRow)
        :: [⟨[some 6171, some 7], [some "M", some "C"]⟩]) 6171 "Mammalia")
      = skeletonOf (pathsToTree ([] ++ [⟨[some 6171, some 7], [some "M", some "C"]⟩])
          6171 "Mammalia") :=
  c4_unrooted_record_skipped [] [⟨[some 6171, some 7], [some "M", some "C"]⟩]
    ⟨[some 99, some 5], [some "A", some "B"]⟩ 6171 "Mammalia" (by decide)

/-! ## C3 support -/

theorem stripNonDigits_good {t : String} (h : t.data.all Char.isDigit = true) :
    stripNonDigits t = t := by
  unfold stripNonDigits
  rw [List.filter_eq_self.mpr (List.all_eq_true.mp h)]

theorem string_length_eq_zero {s : String} : s.length = 0 ↔ s = "" := by
  rw [string_eq_empty_iff]
  unfold String.length
  exact List.length_eq_zero

theorem string_append_ne_right {b t : String} (h : t ≠ "") : b ++ t ≠ "" := by
  intro hc
  have h2 : (b ++ t).data = [] := by rw [hc]
  rw [String.data_append] at h2
  exact h (string_eq_empty_iff.mpr (List.append_eq_nil.mp h2).2)

theorem empty_append_str (t : String) : "" ++ t = t := rfl

theorem string_len_pos {t : String} (h : t ≠ "") : 1 ≤ t.length :=
  Nat.pos_of_ne_zero (fun h0 => h (string_length_eq_zero.mp h0))

theorem idFold_cons_good (t : String) (rest : List String) (acc : String)
    (h1 : t ≠ "") (h2 : t.data.all Char.isDigit = true) :
    idFold (t :: rest) acc =
      if acc.length + t.length ≤ 5 then
        (if 4 ≤ (acc ++ t).length ∧ (nextStr rest = "" ∨ (acc ++ t).length = 5
            ∨ ((acc ++ t).length = 4 ∧ 1 < (nextStr rest).length)) then
          [digitsVal (acc ++ t)] ++ idFold rest ""
        else idFold rest (acc ++ t))
      else
        (if acc = "" then [] else [digitsVal acc]) ++
        (if 4 ≤ t.length ∧ (nextStr rest = "" ∨ t.length = 5
            ∨ (t.length = 4 ∧ 1 < (nextStr rest).length)) then
          [digitsVal t] ++ idFold rest ""
        else idFold rest t) := by
  conv_lhs => rw [idFold]
  rw [stripNonDigits_good h2, if_neg h1]
  by_cases hle : acc.length + t.length ≤ 5
  · simp only [if_pos hle]
    split_ifs <;> first | rfl | tauto
  · simp only [if_neg hle]
    split_ifs <;> first | rfl | tauto

theorem rule_cons (t : String) (rest : List String) (b : String) :
    specIdFlushRule (t :: rest) b =
      if 5 < b.length + t.length then
        (if b = "" then [] else [digitsVal b]) ++
        (if t.length = 5 then [digitsVal t] ++ specIdFlushRule rest ""
         else specIdFlushRule rest t)
      else
        (if (b ++ t).length = 5 then [digitsVal (b ++ t)] ++ specIdFlushRule rest ""
         else specIdFlushRule rest (b ++ t)) := by
  conv_lhs => rw [specIdFlushRule]
  by_cases hgt : 5 < b.length + t.length
  · simp only [if_pos hgt]
    split_ifs <;> rfl
  · simp only [if_neg hgt]
    split_ifs <;> rfl

theorem idFold_nil_ne (x : String) (hx : ¬ x = "") : idFold [] x = [digitsVal x] := by
  rw [idFold, if_neg hx]

theorem rule_nil_ne (x : String) (hx : ¬ x = "") : specIdFlushRule [] x = [digitsVal x] := by
  rw [specIdFlushRule, if_neg hx]

theorem idFold_eq_rule :
    ∀ ts : List String, GoodToks ts →
      (∀ b : String, idFold ts b = specIdFlushRule ts b) ∧
      (∀ c : String, c.length = 4 →
        (∀ u, ts.head? = some u → 2 ≤ u.length) →
        digitsVal c :: idFold ts "" = specIdFlushRule ts c)
  | [], _ => by
    constructor
    · intro b
      rfl
    · intro c hc4 _
      have hc : ¬ c = "" := fun h => by rw [h] at hc4; exact absurd hc4 (by decide)
      rw [idFold, if_pos rfl, rule_nil_ne c hc]
  | t :: rest, good => by
    have goodRest : GoodToks rest := fun u hu => good u (List.mem_cons_of_mem _ hu)
    obtain ⟨ihA, ihB⟩ := idFold_eq_rule rest goodRest
    obtain ⟨ht1, ht2⟩ := good t (List.mem_cons_self _ _)
    have hTpos : 1 ≤ t.length := string_len_pos ht1
    constructor
    · intro b
      rw [idFold_cons_good t rest b ht1 ht2, rule_cons]
      have hlen : (b ++ t).length = b.length + t.length := String.length_append b t
      have hbtne : ¬ (b ++ t) = "" := string_append_ne_right ht1
      by_cases hle : b.length + t.length ≤ 5
      · rw [if_pos hle, if_neg (by omega : ¬ 5 < b.length + t.length)]
        rcases rest with _ | ⟨u, r2⟩
        · simp only [nextStr]
          by_cases h4 : 4 ≤ (b ++ t).length
          · rw [if_pos ⟨h4, Or.inl (by trivial)⟩]
            by_cases h5 : (b ++ t).length = 5
            · rw [if_pos h5]
              rfl
            · rw [if_neg h5, rule_nil_ne _ hbtne]
              rfl
          · rw [if_neg (fun hc => h4 hc.1), if_neg (by omega : ¬ (b ++ t).length = 5),
              idFold_nil_ne _ hbtne, rule_nil_ne _ hbtne]
        · obtain ⟨hu1, hu2⟩ := goodRest u (List.mem_cons_self _ _)
          have hupos : 1 ≤ u.length := string_len_pos hu1
          simp only [nextStr, stripNonDigits_good hu2]
          by_cases h5 : (b ++ t).length = 5
          · rw [if_pos ⟨by omega, Or.inr (Or.inl h5)⟩, if_pos h5, ihA ""]
          · by_cases h42 : (b ++ t).length = 4 ∧ 2 ≤ u.length
            · rw [if_pos ⟨by omega, Or.inr (Or.inr ⟨h42.1, by omega⟩)⟩, if_neg h5]
              exact ihB (b ++ t) h42.1
                (fun v hv => by cases hv; exact h42.2)
            · rw [if_neg ?_, if_neg h5]
              · exact ihA (b ++ t)
              · rintro ⟨hg4, hu0 | h5x | ⟨h4x, hltx⟩⟩
                · exact hu1 hu0
                · exact h5 h5x
                · exact h42 ⟨h4x, by omega⟩
      · rw [if_neg hle, if_pos (by omega : 5 < b.length + t.length)]
        congr 1
        rcases rest with _ | ⟨u, r2⟩
        · simp only [nextStr]
          by_cases h4 : 4 ≤ t.length
          · rw [if_pos ⟨h4, Or.inl (by trivial)⟩]
            by_cases h5 : t.length = 5
            · rw [if_pos h5]
              rfl
            · rw [if_neg h5, rule_nil_ne _ ht1]
              rfl
          · rw [if_neg (fun hc => h4 hc.1), if_neg (by omega : ¬ t.length = 5),
              idFold_nil_ne _ ht1, rule_nil_ne _ ht1]
        · obtain ⟨hu1, hu2⟩ := goodRest u (List.mem_cons_self _ _)
          have hupos : 1 ≤ u.length := string_len_pos hu1
          simp only [nextStr, stripNonDigits_good hu2]
          by_cases h5 : t.length = 5
          · rw [if_pos ⟨by omega, Or.inr (Or.inl h5)⟩, if_pos h5, ihA ""]
          · by_cases h42 : t.length = 4 ∧ 2 ≤ u.length
            · rw [if_pos ⟨by omega, Or.inr (Or.inr ⟨h42.1, by omega⟩)⟩, if_neg h5]
              exact ihB t h42.1 (fun v hv => by cases hv; exact h42.2)
            · rw [if_neg ?_, if_neg h5]
              · exact ihA t
              · rintro ⟨hg4, hu0 | h5x | ⟨h4x, hltx⟩⟩
                · exact hu1 hu0
                · exact h5 h5x
                · exact h42 ⟨h4x, by omega⟩
    · intro c hc4 hhead
      have hT2 : 2 ≤ t.length := hhead t rfl
      have hcne : ¬ c = "" := fun h => by rw [h] at hc4; exact absurd hc4 (by decide)
      rw [idFold_cons_good t rest "" ht1 ht2, rule_cons,
        if_pos (by omega : 5 < c.length + t.length), if_neg hcne]
      rw [empty_append_str]
      simp only [List.singleton_append]
      have hemp : ("" : String).length = 0 := rfl
      by_cases hle : t.length ≤ 5
      · rw [if_pos (by omega : ("" : String).length + t.length ≤ 5)]
        rcases rest with _ | ⟨u, r2⟩
        · simp only [nextStr]
          by_cases h4 : 4 ≤ t.length
          · rw [if_pos ⟨h4, Or.inl (by trivial)⟩]
            by_cases h5 : t.length = 5
            · rw [if_pos h5]
              rfl
            · rw [if_neg h5, rule_nil_ne _ ht1]
              rfl
          · rw [if_neg (fun hc => h4 hc.1), if_neg (by omega : ¬ t.length = 5),
              idFold_nil_ne _ ht1, rule_nil_ne _ ht1]
        · obtain ⟨hu1, hu2⟩ := goodRest u (List.mem_cons_self _ _)
          have hupos : 1 ≤ u.length := string_len_pos hu1
          simp only [nextStr, stripNonDigits_good hu2]
          by_cases h5 : t.length = 5
          · rw [if_pos ⟨by omega, Or.inr (Or.inl h5)⟩, if_pos h5, ihA ""]
          · by_cases h42 : t.length = 4 ∧ 2 ≤ u.length
            · rw [if_pos ⟨by omega, Or.inr (Or.inr ⟨h42.1, by omega⟩)⟩, if_neg h5]
              rw [ihB t h42.1 (fun v hv => by cases hv; exact h42.2)]
            · rw [if_neg ?_, if_neg h5]
              · rw [ihA t]
              · rintro ⟨hg4, hu0 | h5x | ⟨h4x, hltx⟩⟩
                · exact hu1 hu0
                · exact h5 h5x
                · exact h42 ⟨h4x, by omega⟩
      · rw [if_neg (by omega : ¬ ("" : String).length + t.length ≤ 5), if_pos (by trivial)]
        simp only [List.nil_append]
        rcases rest with _ | ⟨u, r2⟩
        · simp only [nextStr]
          rw [if_pos ⟨by omega, Or.inl (by trivial)⟩, if_neg (by omega : ¬ t.length = 5),
            rule_nil_ne _ ht1]
          rfl
        · obtain ⟨hu1, hu2⟩ := goodRest u (List.mem_cons_self _ _)
          simp only [nextStr, stripNonDigits_good hu2]
          rw [if_neg ?_, if_neg (by omega : ¬ t.length = 5)]
          · rw [ihA t]
          · rintro ⟨hg4, hu0 | h5x | ⟨h4x, hltx⟩⟩
            · exact hu1 hu0
            · omega
            · omega

/-! ## Association-list and tree-surgery lemmas for C2/C8 -/

theorem aget_cons {κ ν : Type} [DecidableEq κ] (e : κ × ν) (m : AList κ ν) (k : κ) :
    aget (e :: m) k = if e.1 = k then some e.2 else aget m k := by
  unfold aget
  rw [List.find?]
  by_cases h : e.1 = k
  · rw [if_pos h]
    simp [h]
  · rw [if_neg h]
    simp [h]

theorem aget_nil {κ ν : Type} [DecidableEq κ] (k : κ) : aget ([] : AList κ ν) k = none := rfl

theorem mem_akeys_iff {κ ν : Type} [DecidableEq κ] {m : AList κ ν} {k : κ} :
    k ∈ akeys m ↔ ∃ v, aget m k = some v := by
  induction m with
  | nil => simp [akeys, aget_nil]
  | cons e t ih =>
    rw [aget_cons]
    by_cases h : e.1 = k
    · simp [akeys, h]
    · simp only [akeys, List.map_cons, List.mem_cons, if_neg h]
      constructor
      · rintro (rfl | hm)
        · exact absurd rfl h
        · exact ih.mp hm
      · intro hv
        exact Or.inr (ih.mpr hv)

theorem aget_none_iff {κ ν : Type} [DecidableEq κ] {m : AList κ ν} {k : κ} :
    aget m k = none ↔ k ∉ akeys m := by
  rw [mem_akeys_iff]
  cases h : aget m k with
  | none => simp
  | some v => simp [h]

theorem ahas_true_iff {κ ν : Type} [DecidableEq κ] {m : AList κ ν} {k : κ} :
    ahas m k = true ↔ k ∈ akeys m := by
  unfold ahas
  rw [mem_akeys_iff]
  unfold aget
  cases h : m.find? (fun e => e.1 = k) with
  | none => simp [h]
  | some e => simp [h]

theorem ahas_false_iff {κ ν : Type} [DecidableEq κ] {m : AList κ ν} {k : κ} :
    ahas m k = false ↔ aget m k = none := by
  rw [aget_none_iff, ← ahas_true_iff]
  cases ahas m k <;> simp

theorem aset_fresh {κ ν : Type} [DecidableEq κ] {m : AList κ ν} {k : κ} (v : ν)
    (h : aget m k = none) : aset m k v = m ++ [(k, v)] := by
  unfold aset
  rw [if_neg]
  intro hs
  unfold aget at h
  cases hx : m.find? (fun e => e.1 = k) with
  | none => rw [hx] at hs; simp at hs
  | some e => rw [hx] at h; simp at h

theorem aget_append_left {κ ν : Type} [DecidableEq κ] {m : AList κ ν} {k : κ} {v : ν}
    (l : AList κ ν) (h : aget m k = some v) : aget (m ++ l) k = some v := by
  induction m with
  | nil => rw [aget_nil] at h; cases h
  | cons e t ih =>
    rw [aget_cons] at h
    rw [List.cons_append, aget_cons]
    by_cases he : e.1 = k
    · rw [if_pos he] at h ⊢
      exact h
    · rw [if_neg he] at h ⊢
      exact ih h

theorem aget_append_right {κ ν : Type} [DecidableEq κ] {m : AList κ ν} {k : κ}
    (l : AList κ ν) (h : aget m k = none) : aget (m ++ l) k = aget l k := by
  induction m with
  | nil => rfl
  | cons e t ih =>
    rw [aget_cons] at h
    rw [List.cons_append, aget_cons]
    by_cases he : e.1 = k
    · rw [if_pos he] at h
      cases h
    · rw [if_neg he] at h ⊢
      exact ih h

theorem akeys_append {κ ν : Type} (m l : AList κ ν) :
    akeys (m ++ l) = akeys m ++ akeys l := by
  simp [akeys]

theorem akeys_addChildTo (m : ByIdMap) (p c : Option Int) :
    akeys (addChildTo m p c) = akeys m := by
  unfold addChildTo akeys
  rw [List.map_map]
  apply List.map_congr_left
  intro e _
  by_cases h : e.1 = p
  · simp [h]
  · simp [h]

theorem aget_addChildTo (m : ByIdMap) (p c k : Option Int) :
    aget (addChildTo m p c) k =
      (aget m k).map (fun n =>
        if k = p then { n with children := n.children ++ [c] } else n) := by
  induction m with
  | nil => rfl
  | cons e t ih =>
    unfold addChildTo at ih ⊢
    rw [List.map_cons]
    by_cases he : e.1 = p
    · rw [if_pos he, aget_cons, aget_cons]
      dsimp only
      by_cases hk : e.1 = k
      · rw [if_pos hk, if_pos hk]
        have hkp : k = p := by rw [← hk, he]
        simp [hkp]
      · rw [if_neg hk, if_neg hk]
        exact ih
    · rw [if_neg he, aget_cons, aget_cons]
      by_cases hk : e.1 = k
      · rw [if_pos hk, if_pos hk]
        have hkp : ¬ k = p := by rw [← hk]; exact he
        simp [hkp]
      · rw [if_neg hk, if_neg hk]
        exact ih

theorem allChildren_append (m l : ByIdMap) :
    allChildren (m ++ l) = allChildren m ++ allChildren l := by
  simp [allChildren]

theorem addChildTo_not_mem : ∀ (m : ByIdMap) (p c : Option Int), p ∉ akeys m →
    addChildTo m p c = m
  | [], _, _, _ => rfl
  | e :: t, p, c, h => by
    have h1 : ¬ e.1 = p := by
      intro hc
      exact h (by simp [akeys, hc])
    have h2 : p ∉ akeys t := by
      intro hm
      apply h
      simp only [akeys, List.map_cons, List.mem_cons]
      exact Or.inr hm
    have ht := addChildTo_not_mem t p c h2
    unfold addChildTo at ht ⊢
    rw [List.map_cons, if_neg h1, ht]

theorem allChildren_addChildTo_decomp : ∀ (m : ByIdMap) (p c : Option Int),
    (akeys m).Nodup → p ∈ akeys m →
    ∃ l1 l2, allChildren m = l1 ++ l2 ∧ allChildren (addChildTo m p c) = l1 ++ c :: l2
  | [], _, _, _, hp => absurd hp (by simp [akeys])
  | e :: t, p, c, hnod, hp => by
    have hnod2 : (e.1 :: akeys t).Nodup := by simpa [akeys] using hnod
    unfold addChildTo
    rw [List.map_cons]
    by_cases he : e.1 = p
    · rw [if_pos he]
      have hpt : p ∉ akeys t := by
        rw [← he]
        exact (List.nodup_cons.mp hnod2).1
      have ht : addChildTo t p c = t := addChildTo_not_mem t p c hpt
      unfold addChildTo at ht
      rw [ht]
      refine ⟨e.2.children, allChildren t, rfl, ?_⟩
      simp [allChildren]
    · rw [if_neg he]
      have hpt : p ∈ akeys t := by
        rcases (by simpa [akeys] using hp : p = e.1 ∨ p ∈ akeys t) with h1 | h1
        · exact absurd h1.symm he
        · exact h1
      obtain ⟨l1, l2, hs1, hs2⟩ :=
        allChildren_addChildTo_decomp t p c (List.nodup_cons.mp hnod2).2 hpt
      unfold addChildTo at hs2
      refine ⟨e.2.children ++ l1, l2, ?_, ?_⟩
      · simp only [allChildren, List.map_cons, List.flatten_cons] at hs1 ⊢
        rw [hs1, List.append_assoc]
      · simp only [allChildren, List.map_cons, List.flatten_cons] at hs2 ⊢
        rw [hs2, List.append_assoc]

theorem chainLen_mono {m m2 : ByIdMap}
    (hext : ∀ k n, aget m k = some n →
      ∃ n2, aget m2 k = some n2 ∧ ∀ x ∈ n.children, x ∈ n2.children) :
    ∀ {a b : Option Int} {L : Nat}, ChainLen m a b L → ChainLen m2 a b L := by
  intro a b L h
  induction h with
  | refl k => exact ChainLen.refl k
  | cons hg hc _ ih =>
    obtain ⟨n2, hg2, hsub⟩ := hext _ _ hg
    exact ChainLen.cons hg2 (hsub _ hc) ih

theorem chainLen_snoc {m : ByIdMap} {a b c : Option Int} {n : BNode} {L : Nat}
    (h : ChainLen m a b L) (hg : aget m b = some n) (hc : c ∈ n.children) :
    ChainLen m a c (L + 1) := by
  induction h with
  | refl k => exact ChainLen.cons hg hc (ChainLen.refl c)
  | cons hg2 hc2 _ ih => exact ChainLen.cons hg2 hc2 (ih hg)

theorem ext_insertUnder (m : ByIdMap) (p id : Option Int) (node : BNode) :
    ∀ k n, aget m k = some n →
      ∃ n2, aget (addChildTo m p id ++ [(id, node)]) k = some n2 ∧
        n2.id = n.id ∧ n2.name = n.name ∧ (∀ x ∈ n.children, x ∈ n2.children) ∧
        n.children <+: n2.children ∧ n2.isSynonym = n.isSynonym ∧
        n2.validId = n.validId := by
  intro k n hk
  have h1 : aget (addChildTo m p id) k
      = some (if k = p then { n with children := n.children ++ [id] } else n) := by
    rw [aget_addChildTo, hk]
    rfl
  refine ⟨_, aget_append_left _ h1, ?_⟩
  by_cases hkp : k = p
  · rw [if_pos hkp]
    exact ⟨rfl, rfl, fun x hx => List.mem_append_left _ hx, List.prefix_append _ _, rfl, rfl⟩
  · rw [if_neg hkp]
    exact ⟨rfl, rfl, fun x hx => hx, List.prefix_refl _, rfl, rfl⟩

theorem aget_insertUnder_self (m : ByIdMap) (p id : Option Int) (node : BNode)
    (hid : aget m id = none) :
    aget (addChildTo m p id ++ [(id, node)]) id = some node := by
  have h1 : aget (addChildTo m p id) id = none := by
    rw [aget_addChildTo, hid]
    rfl
  rw [aget_append_right _ h1, aget_cons]
  simp

/-- The single tree-surgery step shared by `walkIds` and `graftOne`:
append a fresh leaf node under an existing parent.  It preserves the
full invariant. -/
theorem inv_insertUnder {m : ByIdMap} {rid : Int} {p id : Option Int} (node : BNode)
    (hInv : Inv m rid) (hp : p ∈ akeys m) (hid : aget m id = none)
    (hnid : node.id = id) (hnch : node.children = []) :
    Inv (addChildTo m p id ++ [(id, node)]) rid := by
  obtain ⟨⟨hnodup, hidf, hck, hcnod, hroot, hnonroot, _⟩, hrk, hchain⟩ := hInv
  have hidk : id ∉ akeys m := aget_none_iff.mp hid
  have hidne : id ≠ some rid := fun h => hidk (h ▸ hrk)
  have hkeys2 : akeys (addChildTo m p id ++ [(id, node)]) = akeys m ++ [id] := by
    rw [akeys_append, akeys_addChildTo]
    rfl
  have hlen2 : (addChildTo m p id ++ [(id, node)]).length = m.length + 1 := by
    simp [addChildTo]
  have hACeq : allChildren (addChildTo m p id ++ [(id, node)])
      = allChildren (addChildTo m p id) := by
    rw [allChildren_append]
    simp [allChildren, hnch]
  obtain ⟨l1, l2, hs1, hs2⟩ := allChildren_addChildTo_decomp m p id hnodup hp
  have hmem2 : ∀ x, x ∈ allChildren (addChildTo m p id ++ [(id, node)]) ↔
      (x = id ∨ x ∈ allChildren m) := by
    intro x
    rw [hACeq, hs2, hs1]
    simp only [List.mem_append, List.mem_cons]
    tauto
  have hext := ext_insertUnder m p id node
  have hextw : ∀ k n, aget m k = some n →
      ∃ n2, aget (addChildTo m p id ++ [(id, node)]) k = some n2 ∧
        ∀ x ∈ n.children, x ∈ n2.children := by
    intro k n hk
    obtain ⟨n2, hg, _, _, hsub, _⟩ := hext k n hk
    exact ⟨n2, hg, hsub⟩
  have hget : ∀ k n2, aget (addChildTo m p id ++ [(id, node)]) k = some n2 →
      (k = id ∧ n2 = node) ∨
      (∃ n, aget m k = some n ∧
        n2 = if k = p then { n with children := n.children ++ [id] } else n) := by
    intro k n2 hk
    by_cases hki : k = id
    · subst hki
      rw [aget_insertUnder_self m p k node hid] at hk
      exact Or.inl ⟨rfl, (Option.some.injEq _ _).mp hk.symm⟩
    · cases hx : aget m k with
      | none =>
        have h1 : aget (addChildTo m p id) k = none := by
          rw [aget_addChildTo, hx]
          rfl
        rw [aget_append_right _ h1, aget_cons] at hk
        rw [if_neg (fun hc => hki hc.symm)] at hk
        cases hk
      | some n =>
        have h1 : aget (addChildTo m p id) k
            = some (if k = p then { n with children := n.children ++ [id] } else n) := by
          rw [aget_addChildTo, hx]
          rfl
        rw [aget_append_left _ h1] at hk
        exact Or.inr ⟨n, rfl, (Option.some.injEq _ _).mp hk.symm⟩
  have hchain2 : ∀ k ∈ akeys (addChildTo m p id ++ [(id, node)]),
      ∃ L, ChainLen (addChildTo m p id ++ [(id, node)]) (some rid) k L ∧
        L < (addChildTo m p id ++ [(id, node)]).length := by
    intro k hk
    rw [hkeys2] at hk
    rcases List.mem_append.mp hk with hk1 | hk1
    · obtain ⟨L, hch, hL⟩ := hchain k hk1
      exact ⟨L, chainLen_mono hextw hch, by omega⟩
    · rw [List.mem_singleton] at hk1
      obtain ⟨Lp, hchp, hLp⟩ := hchain p hp
      obtain ⟨np, hnp⟩ := mem_akeys_iff.mp hp
      have hp2 : aget (addChildTo m p id ++ [(id, node)]) p
          = some { np with children := np.children ++ [id] } := by
        have h1 : aget (addChildTo m p id) p
            = some { np with children := np.children ++ [id] } := by
          rw [aget_addChildTo, hnp]
          simp
        exact aget_append_left _ h1
      refine ⟨Lp + 1, ?_, by omega⟩
      rw [hk1]
      exact chainLen_snoc (chainLen_mono hextw hchp) hp2 (by simp)
  refine ⟨⟨?_, ?_, ?_, ?_, ?_, ?_, ?_⟩, ?_, hchain2⟩
  · rw [hkeys2]
    simp only [List.nodup_append, List.nodup_singleton]
    exact ⟨hnodup, by trivial, by simpa using hidk⟩
  · intro k n2 hk
    rcases hget k n2 hk with ⟨rfl, rfl⟩ | ⟨n, hn, rfl⟩
    · exact hnid
    · by_cases hkp : k = p
      · rw [if_pos hkp]
        exact hidf k n hn
      · rw [if_neg hkp]
        exact hidf k n hn
  · intro c hc
    rw [hkeys2, List.mem_append]
    rcases (hmem2 c).mp hc with hc1 | hc1
    · exact Or.inr (by simp [hc1])
    · exact Or.inl (hck c hc1)
  · rw [hACeq, hs2]
    have hperm : (l1 ++ id :: l2).Perm (id :: (l1 ++ l2)) := List.perm_middle
    rw [hperm.nodup_iff, List.nodup_cons, ← hs1]
    refine ⟨fun hc => hidk (hck id hc), hcnod⟩
  · intro hc
    rcases (hmem2 (some rid)).mp hc with hc1 | hc1
    · exact hidne hc1.symm
    · exact hroot hc1
  · intro k hk hkr
    rw [hkeys2, List.mem_append] at hk
    rcases hk with hk1 | hk1
    · exact (hmem2 k).mpr (Or.inr (hnonroot k hk1 hkr))
    · rw [List.mem_singleton] at hk1
      exact (hmem2 k).mpr (Or.inl hk1)
  · intro k hk
    obtain ⟨L, hch, _⟩ := hchain2 k hk
    exact ⟨L, hch⟩
  · rw [hkeys2]
    exact List.mem_append_left _ hrk

theorem insert_then_addChild (m : ByIdMap) (p id : Option Int) (child : BNode)
    (hid : aget m id = none) (hp : p ∈ akeys m) :
    addChildTo (m ++ [(id, child)]) p id = addChildTo m p id ++ [(id, child)] := by
  unfold addChildTo
  rw [List.map_append]
  congr 1
  have hne : ¬ id = p := fun hc => (aget_none_iff.mp hid) (hc ▸ hp)
  simp [hne]

theorem walkIds_inv (nameDict : AList Int String) (names : List (Option String)) (rid : Int) :
    ∀ (ids : List (Option Int)) (i : Nat) (m : ByIdMap) (p : Option Int),
      Inv m rid → p ∈ akeys m →
      Inv (walkIds nameDict names ids i m p) rid
  | [], _, _, _, hInv, _ => hInv
  | id :: rest, i, m, p, hInv, hp => by
    rw [walkIds.eq_def]
    dsimp only
    cases hx : aget m id with
    | some n =>
      exact walkIds_inv nameDict names rid rest (i + 1) m id hInv
        (mem_akeys_iff.mpr ⟨n, hx⟩)
    | none =>
      rw [aset_fresh _ hx, insert_then_addChild m p id _ hx hp]
      apply walkIds_inv nameDict names rid rest (i + 1) _ id
      · exact inv_insertUnder _ hInv hp hx rfl rfl
      · rw [akeys_append, akeys_addChildTo]
        exact List.mem_append_right _ (by simp [akeys])

theorem processRow_inv (nameDict : AList Int String) (rid : Int) (m : ByIdMap)
    (r : PathRow) (hInv : Inv m rid) : Inv (processRow nameDict rid m r) rid := by
  cases hids : r.ids_root_to_leaf with
  | nil => simpa only [processRow, hids] using hInv
  | cons hd rest =>
    cases hd with
    | none => simpa only [processRow, hids] using hInv
    | some x =>
      by_cases hx : x = rid
      · simp only [processRow, hids, if_pos hx]
        exact walkIds_inv _ _ rid rest 1 m (some rid) hInv hInv.2.1
      · simpa only [processRow, hids, if_neg hx] using hInv

theorem inv_init (rid : Int) (rn : String) :
    Inv [(some rid,
      { id := some rid, name := rn, children := [], isSynonym := false,
        validId := none })] rid := by
  refine ⟨⟨?_, ?_, ?_, ?_, ?_, ?_, ?_⟩, ?_, ?_⟩
  · simp [akeys]
  · intro k n hk
    rw [aget_cons] at hk
    by_cases h : some rid = k
    · rw [if_pos h] at hk
      cases hk
      exact h
    · rw [if_neg h] at hk
      cases hk
  · intro c hc
    simp [allChildren] at hc
  · simp [allChildren]
  · simp [allChildren]
  · intro k hk hkr
    simp only [akeys, List.map_cons, List.map_nil, List.mem_singleton] at hk
    exact absurd hk hkr
  · intro k hk
    simp only [akeys, List.map_cons, List.map_nil, List.mem_singleton] at hk
    exact ⟨0, hk ▸ ChainLen.refl _⟩
  · simp [akeys]
  · intro k hk
    simp only [akeys, List.map_cons, List.map_nil, List.mem_singleton] at hk
    exact ⟨0, hk ▸ ChainLen.refl _, by simp⟩

theorem pathsToTree_inv (rows : List PathRow) (rid : Int) (rn : String) :
    Inv (pathsToTree rows rid rn) rid := by
  simp only [pathsToTree]
  exact foldl_inv (fun m => Inv m rid) _ _ _ (inv_init rid rn)
    (fun m r hm => processRow_inv _ rid m r hm)

theorem findSome?_some {α β : Type} {f : α → Option β} :
    ∀ {l : List α} {b : β}, l.findSome? f = some b → ∃ a ∈ l, f a = some b
  | [], _, h => by cases h
  | a :: l, b, h => by
    rw [List.findSome?_cons] at h
    cases hf : f a with
    | some c =>
      rw [hf] at h
      cases h
      exact ⟨a, by simp, hf⟩
    | none =>
      rw [hf] at h
      obtain ⟨x, hx, hfx⟩ := findSome?_some h
      exact ⟨x, by simp [hx], hfx⟩

theorem findSome?_ne_none {α β : Type} {f : α → Option β} :
    ∀ {l : List α} (a : α), a ∈ l → f a ≠ none → l.findSome? f ≠ none
  | [], a, ha, _ => by cases ha
  | x :: l, a, ha, hf => by
    rw [List.findSome?_cons]
    cases hfx : f x with
    | some c => simp
    | none =>
      rcases List.mem_cons.mp ha with rfl | ha2
      · exact absurd hfx hf
      · exact findSome?_ne_none a ha2 hf

theorem findParent_sound (m : ByIdMap) :
    ∀ (fuel : Nat) (k target : Option Int) (par : Option (Option Int)) (p : Option Int),
      (∀ q : Option Int, par = some q → q ∈ akeys m) →
      findParent m fuel k target par = some p → p ∈ akeys m
  | 0, _, _, _, _, _, h => by cases h
  | fuel + 1, k, target, par, p, hpar, h => by
    rw [findParent] at h
    by_cases hkt : k = target
    · rw [if_pos hkt] at h
      exact hpar p h
    · rw [if_neg hkt] at h
      cases hx : aget m k with
      | none => rw [hx] at h; cases h
      | some n =>
        rw [hx] at h
        obtain ⟨c, _, hcall⟩ := findSome?_some h
        exact findParent_sound m fuel c target (some k) p
          (fun q hq => by cases hq; exact mem_akeys_iff.mpr ⟨n, hx⟩) hcall

theorem graftOne_inv (rid : Int) (anm : AList Int String) (info : SynInfo)
    (nodeId : Option Int) (m : ByIdMap) (syn : SynRec) (hInv : Inv m rid) :
    Inv (graftOne (some rid) anm info nodeId m syn) rid := by
  unfold graftOne
  by_cases hc : ahas m (some syn.invalid_id) = false ∧ ahas anm syn.invalid_id = true
  · rw [if_pos hc]
    cases hgm : aget anm syn.invalid_id with
    | none => exact hInv
    | some synName =>
      cases hfp : findParent m (m.length + 1) (some rid) nodeId none with
      | none => exact hInv
      | some p =>
        dsimp only
        have hp : p ∈ akeys m :=
          findParent_sound m _ _ _ _ p (fun q hq => by cases hq) hfp
        have hid : aget m (some syn.invalid_id) = none := ahas_false_iff.mp hc.1
        have hid2 : aget (addChildTo m p (some syn.invalid_id)) (some syn.invalid_id)
            = none := by
          rw [aget_addChildTo, hid]
          rfl
        rw [aset_fresh _ hid2]
        exact inv_insertUnder _ hInv hp hid rfl rfl
  · rw [if_neg hc]
    exact hInv

theorem graftNode_inv (rid : Int) (anm : AList Int String) (mgr : SynState)
    (m : ByIdMap) (nodeId : Option Int) (hInv : Inv m rid) :
    Inv (graftNode (some rid) anm mgr m nodeId) rid := by
  unfold graftNode
  cases getSynonymInfoO mgr nodeId with
  | none => exact hInv
  | some info =>
    cases aget m nodeId with
    | none => exact hInv
    | some n =>
      exact foldl_inv (fun m2 => Inv m2 rid) _ _ _ hInv
        (fun m2 syn hm2 => graftOne_inv rid anm info nodeId m2 syn hm2)

theorem addMissingSynonyms_inv (rid : Int) (m : ByIdMap) (mgr : SynState)
    (pool : List AllRow) (hInv : Inv m rid) :
    Inv (addMissingSynonyms (some rid) m mgr pool) rid := by
  by_cases hr : mgr.isReady = false
  · simp only [addMissingSynonyms, if_pos hr]
    exact hInv
  · simp only [addMissingSynonyms, if_neg hr]
    exact foldl_inv (fun m2 => Inv m2 rid) _ _ _ hInv
      (fun m2 k hm2 => graftNode_inv rid (buildAllNodesMap pool) mgr m2 k hm2)

/-- C2: after `pathsToTree`, and after any sequence of runs of
`addMissingSynonyms`, the byId map is a bijection with the node set
reachable from the root: keys are unique, each entry's node carries its
key as `id`, every child key is a byId key, every non-root key occurs
exactly once as a child (and the root never does), and every key is
reachable from the root through `children` edges. -/
theorem c2_byId_bijection (rows : List PathRow) (rid : Int) (rn : String) :
    ByIdBij (pathsToTree rows rid rn) rid ∧
    (∀ (mgr : SynState) (pool : List AllRow),
      ByIdBij (addMissingSynonyms (some rid) (pathsToTree rows rid rn) mgr pool) rid) ∧
    (∀ steps : List (SynState × List AllRow),
      ByIdBij (steps.foldl
        (fun m s => addMissingSynonyms (some rid) m s.1 s.2)
        (pathsToTree rows rid rn)) rid) := by
  refine ⟨(pathsToTree_inv rows rid rn).1,
    fun mgr pool =>
      (addMissingSynonyms_inv rid _ mgr pool (pathsToTree_inv rows rid rn)).1,
    fun steps => ?_⟩
  have h := foldl_inv (fun m => Inv m rid)
    (fun m s => addMissingSynonyms (some rid) m s.1 s.2) steps _
    (pathsToTree_inv rows rid rn)
    (fun m s hm => addMissingSynonyms_inv rid m s.1 s.2 hm)
  exact h.1

/-- C3: for every string of the brace-delimited flattened form,
`parseIdPath` reconstructs the id sequence exactly by the stated rule:
accumulate digit groups into a buffer, flushing the buffer as one id
exactly when it reaches 5 digits, when appending the next token would
exceed 5 digits, or when no token remains (`specIdFlushRule`), and under
no other condition. -/
theorem c3_parseIdPath_flush_rule (value : String) (h : IsBraceForm value) :
    parseIdPath value = specIdFlushRule (braceTokens value) "" := by
  obtain ⟨h1, h2, h3⟩ := h
  unfold parseIdPath
  rw [if_pos ⟨h1, h2⟩]
  exact (idFold_eq_rule (braceTokens value) h3).1 ""

/-- Witness for C3 at a concrete flattened string. -/
theorem c3_witness :
    parseIdPath "{61711002,34}" = specIdFlushRule (braceTokens "{61711002,34}") "" :=
  c3_parseIdPath_flush_rule "{61711002,34}" (by unfold IsBraceForm; decide)

/-! ## C8: the graft step only adds, and is idempotent -/

theorem preservesNodes_refl (m : ByIdMap) : PreservesNodes m m :=
  fun _ n hk => ⟨n, hk, rfl, rfl, List.prefix_refl _, rfl, rfl⟩

theorem preservesNodes_trans {m1 m2 m3 : ByIdMap}
    (h12 : PreservesNodes m1 m2) (h23 : PreservesNodes m2 m3) :
    PreservesNodes m1 m3 := by
  intro k n hk
  obtain ⟨n2, hg2, hid2, hnm2, hpre2, hsy2, hv2⟩ := h12 k n hk
  obtain ⟨n3, hg3, hid3, hnm3, hpre3, hsy3, hv3⟩ := h23 k n2 hg2
  exact ⟨n3, hg3, hid3.trans hid2, hnm3.trans hnm2, hpre2.trans hpre3,
    hsy3.trans hsy2, hv3.trans hv2⟩

theorem foldl_preserves {α : Type} (f : ByIdMap → α → ByIdMap)
    (hstep : ∀ (m : ByIdMap) (a : α), PreservesNodes m (f m a)) :
    ∀ (l : List α) (m : ByIdMap), PreservesNodes m (l.foldl f m)
  | [], m => preservesNodes_refl m
  | a :: l, m => by
    rw [List.foldl_cons]
    exact preservesNodes_trans (hstep m a) (foldl_preserves f hstep l (f m a))

theorem foldl_fix {σ α : Type} (f : σ → α → σ) (s : σ) :
    ∀ l : List α, (∀ a ∈ l, f s a = s) → l.foldl f s = s
  | [], _ => rfl
  | a :: l, h => by
    rw [List.foldl_cons, h a (by simp)]
    exact foldl_fix f s l (fun b hb => h b (by simp [hb]))

theorem keys_mono_of_preserves {m m2 : ByIdMap} (h : PreservesNodes m m2) :
    ∀ k, k ∈ akeys m → k ∈ akeys m2 := by
  intro k hk
  obtain ⟨n, hn⟩ := mem_akeys_iff.mp hk
  obtain ⟨n2, hg, _⟩ := h k n hn
  exact mem_akeys_iff.mpr ⟨n2, hg⟩

theorem graftOne_preserves (rootK : Option Int) (anm : AList Int String) (info : SynInfo)
    (nodeId : Option Int) (m : ByIdMap) (syn : SynRec) :
    PreservesNodes m (graftOne rootK anm info nodeId m syn) := by
  unfold graftOne
  by_cases hc : ahas m (some syn.invalid_id) = false ∧ ahas anm syn.invalid_id = true
  · rw [if_pos hc]
    cases hgm : aget anm syn.invalid_id with
    | none => exact preservesNodes_refl m
    | some synName =>
      cases hfp : findParent m (m.length + 1) rootK nodeId none with
      | none => exact preservesNodes_refl m
      | some p =>
        dsimp only
        have hid : aget m (some syn.invalid_id) = none := ahas_false_iff.mp hc.1
        have hid2 : aget (addChildTo m p (some syn.invalid_id)) (some syn.invalid_id)
            = none := by
          rw [aget_addChildTo, hid]
          rfl
        rw [aset_fresh _ hid2]
        intro k n hk
        obtain ⟨n2, hg, hidm, hnm, _, hpre, hsy, hv⟩ := ext_insertUnder m p _ _ k n hk
        exact ⟨n2, hg, hidm, hnm, hpre, hsy, hv⟩
  · rw [if_neg hc]
    exact preservesNodes_refl m

theorem graftNode_preserves (rootK : Option Int) (anm : AList Int String) (mgr : SynState)
    (m : ByIdMap) (nodeId : Option Int) :
    PreservesNodes m (graftNode rootK anm mgr m nodeId) := by
  unfold graftNode
  cases getSynonymInfoO mgr nodeId with
  | none => exact preservesNodes_refl m
  | some info =>
    cases aget m nodeId with
    | none => exact preservesNodes_refl m
    | some n =>
      exact foldl_preserves _ (fun m2 s => graftOne_preserves rootK anm info nodeId m2 s)
        info.synonyms m

theorem addMissingSynonyms_preserves (rootK : Option Int) (m : ByIdMap) (mgr : SynState)
    (pool : List AllRow) : PreservesNodes m (addMissingSynonyms rootK m mgr pool) := by
  by_cases hr : mgr.isReady = false
  · simp only [addMissingSynonyms, if_pos hr]
    exact preservesNodes_refl m
  · simp only [addMissingSynonyms, if_neg hr]
    exact foldl_preserves _
      (fun m2 k => graftNode_preserves rootK (buildAllNodesMap pool) mgr m2 k) (akeys m) m

theorem findParent_complete {m : ByIdMap} :
    ∀ {k target : Option Int} {L : Nat}, ChainLen m k target L →
      ∀ (fuel : Nat) (par : Option (Option Int)), L < fuel →
      (k = target → par ≠ none) →
      findParent m fuel k target par ≠ none := by
  intro k target L hch
  induction hch with
  | refl a =>
    intro fuel par hf hpar
    cases fuel with
    | zero => omega
    | succ f =>
      rw [findParent, if_pos rfl]
      exact hpar rfl
  | @cons a b c n L0 hg hc hrest ih =>
    intro fuel par hf hpar
    cases fuel with
    | zero => omega
    | succ f =>
      rw [findParent]
      by_cases hkt : a = b
      · rw [if_pos hkt]
        exact hpar hkt
      · rw [if_neg hkt, hg]
        dsimp only
        apply findSome?_ne_none c hc
        exact ih f (some a) (by omega) (fun _ hcon => Option.noConfusion hcon)

theorem graftOne_self_noop (rootK : Option Int) (anm : AList Int String) (info : SynInfo)
    (m : ByIdMap) (syn : SynRec) : graftOne rootK anm info rootK m syn = m := by
  unfold graftOne
  by_cases hc : ahas m (some syn.invalid_id) = false ∧ ahas anm syn.invalid_id = true
  · rw [if_pos hc]
    cases hgm : aget anm syn.invalid_id with
    | none => rfl
    | some synName =>
      have hfp : findParent m (m.length + 1) rootK rootK none = none := by
        rw [findParent, if_pos rfl]
      rw [hfp]
  · rw [if_neg hc]

theorem graftOne_keys_sub (rootK : Option Int) (anm : AList Int String) (info : SynInfo)
    (nodeId : Option Int) (m : ByIdMap) (syn : SynRec) :
    ∀ k ∈ akeys (graftOne rootK anm info nodeId m syn),
      k ∈ akeys m ∨ k = some syn.invalid_id := by
  unfold graftOne
  by_cases hc : ahas m (some syn.invalid_id) = false ∧ ahas anm syn.invalid_id = true
  · rw [if_pos hc]
    cases hgm : aget anm syn.invalid_id with
    | none => exact fun k hk => Or.inl hk
    | some synName =>
      cases hfp : findParent m (m.length + 1) rootK nodeId none with
      | none => exact fun k hk => Or.inl hk
      | some p =>
        dsimp only
        have hid : aget m (some syn.invalid_id) = none := ahas_false_iff.mp hc.1
        have hid2 : aget (addChildTo m p (some syn.invalid_id)) (some syn.invalid_id)
            = none := by
          rw [aget_addChildTo, hid]
          rfl
        rw [aset_fresh _ hid2]
        intro k hk
        rw [akeys_append, akeys_addChildTo] at hk
        rcases List.mem_append.mp hk with h1 | h1
        · exact Or.inl h1
        · right
          simpa [akeys] using h1
  · rw [if_neg hc]
    exact fun k hk => Or.inl hk

theorem graft_fold_keys (rootK : Option Int) (anm : AList Int String) (info : SynInfo)
    (nodeId : Option Int) :
    ∀ (syns : List SynRec) (m : ByIdMap) (k : Option Int),
      k ∈ akeys (syns.foldl (graftOne rootK anm info nodeId) m) →
      k ∈ akeys m ∨ ∃ syn ∈ syns, k = some syn.invalid_id
  | [], _, _, hk => Or.inl hk
  | s :: rest, m, k, hk => by
    rw [List.foldl_cons] at hk
    rcases graft_fold_keys rootK anm info nodeId rest _ k hk with h1 | ⟨syn, hs, h2⟩
    · rcases graftOne_keys_sub rootK anm info nodeId m s k h1 with h2 | h2
      · exact Or.inl h2
      · exact Or.inr ⟨s, by simp, h2⟩
    · exact Or.inr ⟨syn, by simp [hs], h2⟩

theorem graftNode_keys_char (rid : Int) (anm : AList Int String) (mgr : SynState)
    (m : ByIdMap) (nodeId : Option Int) :
    ∀ k ∈ akeys (graftNode (some rid) anm mgr m nodeId),
      k ∈ akeys m ∨
      (nodeId ∈ akeys m ∧ nodeId ≠ some rid ∧
        ∃ info, getSynonymInfoO mgr nodeId = some info ∧
          ∃ syn ∈ info.synonyms, k = some syn.invalid_id) := by
  intro k hk
  unfold graftNode at hk
  cases hinfo : getSynonymInfoO mgr nodeId with
  | none =>
    rw [hinfo] at hk
    exact Or.inl hk
  | some info =>
    rw [hinfo] at hk
    dsimp only at hk
    cases hx : aget m nodeId with
    | none =>
      rw [hx] at hk
      exact Or.inl hk
    | some n =>
      rw [hx] at hk
      dsimp only at hk
      by_cases hnr : nodeId = some rid
      · rw [hnr, foldl_fix (graftOne (some rid) anm info (some rid)) m info.synonyms
          (fun syn _ => graftOne_self_noop (some rid) anm info m syn)] at hk
        exact Or.inl hk
      · rcases graft_fold_keys (some rid) anm info nodeId info.synonyms m k hk with
          h1 | ⟨syn, hsyn, h2⟩
        · exact Or.inl h1
        · exact Or.inr ⟨mem_akeys_iff.mpr ⟨n, hx⟩, hnr, info, rfl, syn, hsyn, h2⟩

theorem graftOne_done (rid : Int) (anm : AList Int String) (info : SynInfo)
    (nodeId : Option Int) (m : ByIdMap) (syn : SynRec) (hInv : Inv m rid)
    (hnode : nodeId ∈ akeys m) (hne : nodeId ≠ some rid) :
    ahas (graftOne (some rid) anm info nodeId m syn) (some syn.invalid_id) = true ∨
    ahas anm syn.invalid_id = false := by
  unfold graftOne
  by_cases hc : ahas m (some syn.invalid_id) = false ∧ ahas anm syn.invalid_id = true
  · rw [if_pos hc]
    cases hgm : aget anm syn.invalid_id with
    | none =>
      obtain ⟨v, hv⟩ := mem_akeys_iff.mp (ahas_true_iff.mp hc.2)
      rw [hgm] at hv
      exact Option.noConfusion hv
    | some synName =>
      cases hfp : findParent m (m.length + 1) (some rid) nodeId none with
      | none =>
        exfalso
        obtain ⟨L, hch, hL⟩ := hInv.2.2 nodeId hnode
        exact findParent_complete hch (m.length + 1) none (by omega)
          (fun heq => absurd heq.symm hne) hfp
      | some p =>
        dsimp only
        left
        have hid : aget m (some syn.invalid_id) = none := ahas_false_iff.mp hc.1
        have hid2 : aget (addChildTo m p (some syn.invalid_id)) (some syn.invalid_id)
            = none := by
          rw [aget_addChildTo, hid]
          rfl
        rw [aset_fresh _ hid2]
        exact ahas_true_iff.mpr (mem_akeys_iff.mpr
          ⟨_, aget_insertUnder_self m p (some syn.invalid_id) _ hid⟩)
  · rw [if_neg hc]
    cases ha : ahas m (some syn.invalid_id) with
    | true => exact Or.inl rfl
    | false =>
      cases hb : ahas anm syn.invalid_id with
      | false => exact Or.inr rfl
      | true => exact absurd ⟨ha, hb⟩ hc

theorem graft_fold_done (rid : Int) (anm : AList Int String) (info : SynInfo)
    (nodeId : Option Int) :
    ∀ (syns : List SynRec) (m : ByIdMap), Inv m rid → nodeId ∈ akeys m →
      nodeId ≠ some rid → ∀ syn ∈ syns,
      ahas (syns.foldl (graftOne (some rid) anm info nodeId) m)
        (some syn.invalid_id) = true ∨
      ahas anm syn.invalid_id = false
  | [], _, _, _, _, _, hs => absurd hs (List.not_mem_nil _)
  | s :: rest, m, hInv, hnode, hne, syn, hs => by
    rw [List.foldl_cons]
    have hInv1 : Inv (graftOne (some rid) anm info nodeId m s) rid :=
      graftOne_inv rid anm info nodeId m s hInv
    have hnode1 : nodeId ∈ akeys (graftOne (some rid) anm info nodeId m s) :=
      keys_mono_of_preserves (graftOne_preserves (some rid) anm info nodeId m s)
        nodeId hnode
    rcases List.mem_cons.mp hs with rfl | hs2
    · rcases graftOne_done rid anm info nodeId m syn hInv hnode hne with hdone | hanm
      · left
        have hp2 := foldl_preserves (graftOne (some rid) anm info nodeId)
          (fun m2 a => graftOne_preserves (some rid) anm info nodeId m2 a) rest
          (graftOne (some rid) anm info nodeId m syn)
        exact ahas_true_iff.mpr (keys_mono_of_preserves hp2 _ (ahas_true_iff.mp hdone))
      · exact Or.inr hanm
    · exact graft_fold_done rid anm info nodeId rest _ hInv1 hnode1 hne syn hs2

theorem graftNode_done (rid : Int) (anm : AList Int String) (mgr : SynState)
    (m : ByIdMap) (nodeId : Option Int) (hInv : Inv m rid) (hnode : nodeId ∈ akeys m)
    (hne : nodeId ≠ some rid) (info : SynInfo)
    (hinfo : getSynonymInfoO mgr nodeId = some info) :
    DoneFor (graftNode (some rid) anm mgr m nodeId) anm info := by
  obtain ⟨n, hn⟩ := mem_akeys_iff.mp hnode
  unfold graftNode
  rw [hinfo, hn]
  exact fun syn hs =>
    graft_fold_done rid anm info nodeId info.synonyms m hInv hnode hne syn hs

theorem doneFor_mono {m m2 : ByIdMap} {anm : AList Int String} {info : SynInfo}
    (h : PreservesNodes m m2) (hd : DoneFor m anm info) : DoneFor m2 anm info := by
  intro syn hs
  rcases hd syn hs with h1 | h1
  · exact Or.inl (ahas_true_iff.mpr (keys_mono_of_preserves h _ (ahas_true_iff.mp h1)))
  · exact Or.inr h1

theorem graft_outer_done (rid : Int) (anm : AList Int String) (mgr : SynState)
    (hwf : MgrWF mgr) :
    ∀ (todo : List (Option Int)) (m : ByIdMap), Inv m rid →
      (∀ k ∈ akeys m, k ∉ todo → k ≠ some rid →
        ∀ info, getSynonymInfoO mgr k = some info → DoneFor m anm info) →
      Inv (todo.foldl (graftNode (some rid) anm mgr) m) rid ∧
      (∀ k ∈ akeys (todo.foldl (graftNode (some rid) anm mgr) m), k ≠ some rid →
        ∀ info, getSynonymInfoO mgr k = some info →
          DoneFor (todo.foldl (graftNode (some rid) anm mgr) m) anm info)
  | [], m, hInv, hpre =>
    ⟨hInv, fun k hk hkr info hinfo => hpre k hk (by simp) hkr info hinfo⟩
  | nodeId :: rest, m, hInv, hpre => by
    rw [List.foldl_cons]
    apply graft_outer_done rid anm mgr hwf rest (graftNode (some rid) anm mgr m nodeId)
      (graftNode_inv rid anm mgr m nodeId hInv)
    intro k hk hkrest hkr info hinfo
    rcases graftNode_keys_char rid anm mgr m nodeId k hk with
      hold | ⟨hnd, hndr, info0, hinfo0, syn, hsyn, hkeq⟩
    · by_cases hkn : k = nodeId
      · rw [← hkn]
        exact graftNode_done rid anm mgr m k hInv hold hkr info hinfo
      · have hnotin : k ∉ nodeId :: rest := by
          intro hmem
          rcases List.mem_cons.mp hmem with h1 | h1
          · exact hkn h1
          · exact hkrest h1
        exact doneFor_mono (graftNode_preserves (some rid) anm mgr m nodeId)
          (hpre k hold hnotin hkr info hinfo)
    · cases nodeId with
      | none => exact Option.noConfusion hinfo0
      | some nid =>
        have hsi : getSynonymInfo mgr nid = some info0 := hinfo0
        unfold getSynonymInfo at hsi
        cases hv : getValidId mgr nid with
        | none =>
          rw [hv] at hsi
          exact Option.noConfusion hsi
        | some v =>
          rw [hv] at hsi
          have hvk : getValidId mgr syn.invalid_id = some v := hwf v info0 hsi syn hsyn
          have hksome : getSynonymInfoO mgr k = some info0 := by
            rw [hkeq]
            show getSynonymInfo mgr syn.invalid_id = some info0
            unfold getSynonymInfo
            rw [hvk]
            exact hsi
          rw [hinfo] at hksome
          injection hksome with hii
          rw [hii]
          exact graftNode_done rid anm mgr m (some nid) hInv hnd hndr info0 hinfo0

theorem graftOne_noop_of_done (rootK : Option Int) (anm : AList Int String)
    (info : SynInfo) (nodeId : Option Int) (m : ByIdMap) (syn : SynRec)
    (hd : ahas m (some syn.invalid_id) = true ∨ ahas anm syn.invalid_id = false) :
    graftOne rootK anm info nodeId m syn = m := by
  unfold graftOne
  have hneg : ¬ (ahas m (some syn.invalid_id) = false ∧ ahas anm syn.invalid_id = true) := by
    intro hc
    rcases hd with h1 | h1
    · rw [hc.1] at h1
      exact Bool.noConfusion h1
    · rw [hc.2] at h1
      exact Bool.noConfusion h1
  rw [if_neg hneg]

theorem graft_fold_noop (rootK : Option Int) (anm : AList Int String) (info : SynInfo)
    (nodeId : Option Int) :
    ∀ (syns : List SynRec) (m : ByIdMap),
      (∀ syn ∈ syns,
        ahas m (some syn.invalid_id) = true ∨ ahas anm syn.invalid_id = false) →
      syns.foldl (graftOne rootK anm info nodeId) m = m
  | [], _, _ => rfl
  | s :: rest, m, h => by
    rw [List.foldl_cons, graftOne_noop_of_done rootK anm info nodeId m s (h s (by simp))]
    exact graft_fold_noop rootK anm info nodeId rest m (fun syn hs => h syn (by simp [hs]))

theorem graftNode_noop (rid : Int) (anm : AList Int String) (mgr : SynState)
    (m : ByIdMap) (nodeId : Option Int)
    (h : ∀ info, getSynonymInfoO mgr nodeId = some info → DoneFor m anm info) :
    graftNode (some rid) anm mgr m nodeId = m := by
  unfold graftNode
  cases hinfo : getSynonymInfoO mgr nodeId with
  | none => rfl
  | some info =>
    cases aget m nodeId with
    | none => rfl
    | some n =>
      exact graft_fold_noop (some rid) anm info nodeId info.synonyms m (h info hinfo)

theorem graftNode_root_noop (rid : Int) (anm : AList Int String) (mgr : SynState)
    (m : ByIdMap) : graftNode (some rid) anm mgr m (some rid) = m := by
  unfold graftNode
  cases getSynonymInfoO mgr (some rid) with
  | none => rfl
  | some info =>
    cases aget m (some rid) with
    | none => rfl
    | some n =>
      exact foldl_fix _ m info.synonyms
        (fun syn _ => graftOne_self_noop (some rid) anm info m syn)

/-- C8: `addMissingSynonyms` only ever adds nodes — every pre-existing byId
entry survives with the same id, name and flags, its child list only
extended at the back — and, for a well-formed tree (`Inv`) and a
well-formed synonym index (`MgrWF`), it is idempotent: a second run
against the same tree, index and record pool changes nothing, because it
never inserts an id already present in byId. -/
theorem c8_graft_adds_only_and_idempotent :
    (∀ (rootK : Option Int) (m : ByIdMap) (mgr : SynState) (pool : List AllRow),
      PreservesNodes m (addMissingSynonyms rootK m mgr pool)) ∧
    (∀ (rid : Int) (m : ByIdMap) (mgr : SynState) (pool : List AllRow),
      Inv m rid → MgrWF mgr →
      addMissingSynonyms (some rid) (addMissingSynonyms (some rid) m mgr pool) mgr pool
        = addMissingSynonyms (some rid) m mgr pool) := by
  constructor
  · exact fun rootK m mgr pool => addMissingSynonyms_preserves rootK m mgr pool
  · intro rid m mgr pool hInv hwf
    by_cases hr : mgr.isReady = false
    · simp only [addMissingSynonyms, if_pos hr]
    · simp only [addMissingSynonyms, if_neg hr]
      have h1 := graft_outer_done rid (buildAllNodesMap pool) mgr hwf (akeys m) m hInv
        (fun k hk hnotin _ _ _ => absurd hk hnotin)
      apply foldl_fix
      intro nodeId hmem
      by_cases hnr : nodeId = some rid
      · rw [hnr]
        exact graftNode_root_noop rid (buildAllNodesMap pool) mgr _
      · exact graftNode_noop rid (buildAllNodesMap pool) mgr _ nodeId
          (fun info hinfo => h1.2 nodeId hmem hnr info hinfo)

/-- Witness for C8's idempotence at a one-node tree and an empty (but
loaded) synonym index. -/
theorem c8_witness :
    addMissingSynonyms (some 1)
        (addMissingSynonyms (some 1)
          [(some 1,
            { id := some 1, name := "Root", children := [], isSynonym := false,
              validId := none })]
          (SynState.load []) [])
        (SynState.load []) []
      = addMissingSynonyms (some 1)
          [(some 1,
            { id := some 1, name := "Root", children := [], isSynonym := false,
              validId := none })]
          (SynState.load []) [] :=
  c8_graft_adds_only_and_idempotent.2 1
    [(some 1,
      { id := some 1, name := "Root", children := [], isSynonym := false,
        validId := none })]
    (SynState.load []) [] (inv_init 1 "Root")
    (fun _ _ h => Option.noConfusion h)

end NeoViz
